import Mathlib

/-!
Verification of the array-backed binary heap of `src/main.cpp`
(`heapify_up_t`, `heapify_down_t`, `heapify_t`, `heap_t`, `heap_sort_t`
and the free sorting functions).

The C++ code is embedded shallowly: the backing `std::vector` becomes a
`List α`, iterators become natural-number indices, and the injected
comparator type `t_cmp_op_t` becomes a boolean relation `cmp : α → α → Bool`
(`std::greater` and `std::less` on `int` become `maxCmp` / `minCmp` on `Int`).
Loops are embedded as fueled recursions whose fuel is proved sufficient, so
that every definition evaluates by kernel reduction.
-/

namespace HeapCpp

/-- Reads index `i` of the backing sequence, i.e. `*(begin + i)`.  All source
accesses are in bounds; out-of-bounds reads return the (never used) default. -/
def getI {α : Type} [Inhabited α] (l : List α) (i : Nat) : α :=
  l.getD i default

/-- Writes index `i` of the backing sequence, i.e. `*(begin + i) = v`. -/
def setI {α : Type} (l : List α) (i : Nat) (v : α) : List α :=
  l.set i v

/-- Embeds `std::swap(*(begin + i), *(begin + j))`. -/
def swapI {α : Type} [Inhabited α] (l : List α) (i j : Nat) : List α :=
  setI (setI l i (getI l j)) j (getI l i)

/-- Parent index, `(node_idx - child_offset) / 2` with `child_offset = 1` from
`heapify_up_t::operator()`.  The C++ index is a signed `ptrdiff_t` and the
division truncates toward zero, so `(0 - 1) / 2 = 0`; natural-number
truncated subtraction gives the same value at every index. -/
def parentIdx (i : Nat) : Nat := (i - 1) / 2

/-- Left child index `node_idx * 2 + 1` from `heapify_down_t::operator()`. -/
def leftIdx (i : Nat) : Nat := i * 2 + 1

/-- Right child index `node_idx * 2 + 2` from `heapify_down_t::operator()`. -/
def rightIdx (i : Nat) : Nat := i * 2 + 2

theorem length_setI {α : Type} (l : List α) (i : Nat) (v : α) :
    (setI l i v).length = l.length := by
  simp [setI]

theorem getI_eq_getElem {α : Type} [Inhabited α] (l : List α) (i : Nat)
    (h : i < l.length) : getI l i = l[i] := by
  simp [getI, List.getD_eq_getElem?_getD, List.getElem?_eq_getElem h]

theorem getI_setI_eq {α : Type} [Inhabited α] (l : List α) (i : Nat) (v : α)
    (h : i < l.length) : getI (setI l i v) i = v := by
  simp [getI, setI, List.getElem?_set_self h]

theorem getI_setI_ne {α : Type} [Inhabited α] (l : List α) (i j : Nat) (v : α)
    (h : i ≠ j) : getI (setI l i v) j = getI l j := by
  simp [getI, setI, List.getElem?_set_ne h]

theorem setI_getI_self {α : Type} [Inhabited α] (l : List α) (i : Nat) :
    setI l i (getI l i) = l := by
  by_cases h : i < l.length
  · apply List.ext_getElem?
    intro n
    by_cases hn : i = n
    · subst hn
      simp [setI, getI_eq_getElem l i h, List.getElem?_set_self h,
        List.getElem?_eq_getElem h]
    · simp [setI, List.getElem?_set_ne hn]
  · unfold setI
    exact List.set_eq_of_length_le (by omega)

theorem length_swapI {α : Type} [Inhabited α] (l : List α) (i j : Nat) :
    (swapI l i j).length = l.length := by
  simp [swapI, length_setI]

theorem getI_swapI_right {α : Type} [Inhabited α] (l : List α) (i j : Nat)
    (hj : j < l.length) : getI (swapI l i j) j = getI l i := by
  unfold swapI
  rw [getI_setI_eq]
  simpa [length_setI] using hj

theorem getI_swapI_left {α : Type} [Inhabited α] (l : List α) (i j : Nat)
    (hi : i < l.length) : getI (swapI l i j) i = getI l j := by
  by_cases h : i = j
  · subst h
    exact getI_swapI_right l i i hi
  · unfold swapI
    rw [getI_setI_ne _ _ _ _ (Ne.symm h), getI_setI_eq _ _ _ hi]

theorem getI_swapI_other {α : Type} [Inhabited α] (l : List α) (i j k : Nat)
    (hik : k ≠ i) (hjk : k ≠ j) : getI (swapI l i j) k = getI l k := by
  unfold swapI
  rw [getI_setI_ne _ _ _ _ (Ne.symm hjk), getI_setI_ne _ _ _ _ (Ne.symm hik)]

/-- Replacing index `k` by `x` while putting the old inhabitant in front is a
permutation of putting `x` in front. -/
theorem getI_cons_setI_perm {α : Type} [Inhabited α] (l : List α) (k : Nat)
    (x : α) (hk : k < l.length) : (getI l k :: setI l k x).Perm (x :: l) := by
  induction l generalizing k with
  | nil => simp at hk
  | cons a t ih =>
    cases k with
    | zero =>
      simp only [getI, setI, List.getD, List.set]
      exact List.Perm.swap _ _ _
    | succ k =>
      have hk2 : k < t.length := by simpa using hk
      have step : getI (a :: t) (k + 1) :: setI (a :: t) (k + 1) x
          = getI t k :: a :: setI t k x := by
        simp [getI, setI]
      rw [step]
      exact ((List.Perm.swap a (getI t k) _).trans
        (((ih k hk2).cons a).trans (List.Perm.swap x a t)))

theorem swapI_perm {α : Type} [Inhabited α] (l : List α) (i j : Nat)
    (hi : i < l.length) (hj : j < l.length) : (swapI l i j).Perm l := by
  have h1 : (getI (setI l i (getI l j)) j :: swapI l i j).Perm
      (getI l i :: setI l i (getI l j)) :=
    getI_cons_setI_perm (setI l i (getI l j)) j (getI l i)
      (by simpa [length_setI] using hj)
  have h2 : (getI l i :: setI l i (getI l j)).Perm (getI l j :: l) :=
    getI_cons_setI_perm l i (getI l j) hi
  have hji : getI (setI l i (getI l j)) j = getI l j := by
    by_cases h : i = j
    · subst h; exact getI_setI_eq l i _ hi
    · exact getI_setI_ne l i j _ h
  rw [hji] at h1
  exact (h1.trans h2).cons_inv

theorem getI_take {α : Type} [Inhabited α] (l : List α) (e j : Nat) (h : j < e) :
    getI (l.take e) j = getI l j := by
  unfold getI
  by_cases hj : j < l.length
  · rw [List.getD_eq_getElem _ _ (by simp; omega), List.getD_eq_getElem _ _ hj]
    simp
  · rw [List.getD_eq_default _ _ (by simp; omega), List.getD_eq_default _ _ (by omega)]

theorem setI_take {α : Type} (l : List α) (e i : Nat) (v : α) :
    (setI l i v).take e = setI (l.take e) i v :=
  List.set_take

theorem swapI_take {α : Type} [Inhabited α] (l : List α) (e i j : Nat)
    (hi : i < e) (hj : j < e) :
    (swapI l i j).take e = swapI (l.take e) i j := by
  unfold swapI
  rw [setI_take, setI_take, getI_take _ _ _ hj, getI_take _ _ _ hi]

/-!  ## Comparator assumptions

`t_cmp_op_t` is instantiated in the source with `std::greater` and
`std::less`, both strict total orders.  The generic theorems assume exactly
irreflexivity, transitivity and totality of the injected `before` relation. -/

/-- The comparator never prefers an element to itself. -/
def CmpIrrefl {α : Type} (cmp : α → α → Bool) : Prop := ∀ x, cmp x x = false

/-- The comparator is transitive. -/
def CmpTrans {α : Type} (cmp : α → α → Bool) : Prop :=
  ∀ x y z, cmp x y = true → cmp y z = true → cmp x z = true

/-- Any two distinct elements are comparable one way or the other. -/
def CmpTotal {α : Type} (cmp : α → α → Bool) : Prop :=
  ∀ x y, cmp x y = true ∨ x = y ∨ cmp y x = true

/-- A strict total order, as satisfied by `std::greater` and `std::less`. -/
structure StrictCmp {α : Type} (cmp : α → α → Bool) : Prop where
  irrefl : CmpIrrefl cmp
  tr : CmpTrans cmp
  tot : CmpTotal cmp

theorem StrictCmp.asymm {α : Type} {cmp : α → α → Bool} (sc : StrictCmp cmp)
    {x y : α} (h : cmp x y = true) : cmp y x = false := by
  by_contra hc
  have h2 : cmp y x = true := by
    cases hyx : cmp y x
    · exact absurd hyx hc
    · rfl
  have := sc.tr x y x h h2
  rw [sc.irrefl x] at this
  exact Bool.false_ne_true this

theorem StrictCmp.rtrans {α : Type} {cmp : α → α → Bool} (sc : StrictCmp cmp)
    {x y z : α} (hxy : cmp x y = false) (hyz : cmp y z = false) :
    cmp x z = false := by
  by_contra hc
  have hxz : cmp x z = true := by
    cases h : cmp x z
    · exact absurd h hc
    · rfl
  rcases sc.tot x y with h | h | h
  · rw [h] at hxy; simp at hxy
  · subst h; rw [hxz] at hyz; simp at hyz
  · have := sc.tr y x z h hxz
    rw [this] at hyz
    simp at hyz

/-- If `x` is not before `P` but `v` is, then `x` is not before `v`. -/
theorem StrictCmp.stopped {α : Type} {cmp : α → α → Bool} (sc : StrictCmp cmp)
    {x v P : α} (hxP : cmp x P = false) (hvP : cmp v P = true) :
    cmp x v = false := by
  cases hc : cmp x v
  · rfl
  · rw [sc.tr x v P hc hvP] at hxP
    simp at hxP

/-!  ## Sift-Up (`heapify_up_t::operator()`, iterative branch)

The loop body computes `parent_idx = (node_idx - 1) / 2`; the guard
`0 <= parent_idx` always holds for a signed index (at `node_idx = 0` the
truncating division yields `0`), so each iteration compares the node with the
element at `parentIdx node`, and either swaps and continues from the parent
or stops.  The fuel argument mirrors the number of remaining iterations; for
an irreflexive comparator `node + 1` units are proved sufficient (the C++
loop would not terminate at the root for a reflexive comparator). -/

def heapify_up_loop {α : Type} [Inhabited α] (cmp : α → α → Bool) :
    Nat → List α → Nat → Option (List α)
  | 0, _, _ => none
  | fuel + 1, seq, node =>
    if cmp (getI seq node) (getI seq (parentIdx node)) then
      heapify_up_loop cmp fuel (swapI seq (parentIdx node) node) (parentIdx node)
    else
      some seq

/-- The call `heapify_up_type{}(begin, begin + node)`. -/
def heapify_up {α : Type} [Inhabited α] (cmp : α → α → Bool) (seq : List α)
    (node : Nat) : List α :=
  (heapify_up_loop cmp (node + 1) seq node).getD seq

theorem heapify_up_loop_length {α : Type} [Inhabited α] (cmp : α → α → Bool) :
    ∀ (fuel : Nat) (seq : List α) (node : Nat) (r : List α),
      heapify_up_loop cmp fuel seq node = some r → r.length = seq.length := by
  intro fuel
  induction fuel with
  | zero => intro seq node r h; simp [heapify_up_loop] at h
  | succ fuel ih =>
    intro seq node r h
    rw [heapify_up_loop] at h
    split at h
    · have := ih _ _ _ h
      rw [this, length_swapI]
    · cases h; rfl

theorem heapify_up_loop_perm {α : Type} [Inhabited α] (cmp : α → α → Bool) :
    ∀ (fuel : Nat) (seq : List α) (node : Nat) (r : List α),
      node < seq.length → heapify_up_loop cmp fuel seq node = some r →
      r.Perm seq := by
  intro fuel
  induction fuel with
  | zero => intro seq node r _ h; simp [heapify_up_loop] at h
  | succ fuel ih =>
    intro seq node r hn h
    rw [heapify_up_loop] at h
    split at h
    · have hp : parentIdx node < seq.length := by
        have : parentIdx node ≤ node := by unfold parentIdx; omega
        omega
      have h1 : r.Perm (swapI seq (parentIdx node) node) :=
        ih _ _ _ (by rw [length_swapI]; omega) h
      exact h1.trans (swapI_perm seq (parentIdx node) node hp hn)
    · cases h; exact List.Perm.refl _

theorem heapify_up_loop_mono {α : Type} [Inhabited α] (cmp : α → α → Bool) :
    ∀ (fuel fuel' : Nat) (seq : List α) (node : Nat) (r : List α),
      fuel ≤ fuel' → heapify_up_loop cmp fuel seq node = some r →
      heapify_up_loop cmp fuel' seq node = some r := by
  intro fuel
  induction fuel with
  | zero => intro fuel' seq node r _ h; simp [heapify_up_loop] at h
  | succ fuel ih =>
    intro fuel' seq node r hle h
    obtain ⟨f2, rfl⟩ : ∃ f2, fuel' = f2 + 1 := ⟨fuel' - 1, by omega⟩
    rw [heapify_up_loop] at h ⊢
    split at h
    · next hc => rw [if_pos hc]; exact ih f2 _ _ _ (by omega) h
    · next hc => rw [if_neg hc]; exact h

theorem heapify_up_loop_isSome {α : Type} [Inhabited α] {cmp : α → α → Bool}
    (hirr : CmpIrrefl cmp) :
    ∀ (node : Nat) (fuel : Nat) (seq : List α), node < fuel →
      (heapify_up_loop cmp fuel seq node).isSome = true := by
  intro node
  induction node using Nat.strong_induction_on with
  | _ node ih =>
    intro fuel seq hf
    obtain ⟨f2, rfl⟩ : ∃ f2, fuel = f2 + 1 := ⟨fuel - 1, by omega⟩
    rw [heapify_up_loop]
    split
    · next hc =>
      have hnz : node ≠ 0 := by
        intro h0
        rw [h0] at hc
        have : parentIdx 0 = 0 := by unfold parentIdx; rfl
        rw [this, hirr _] at hc
        simp at hc
      have hplt : parentIdx node < node := by unfold parentIdx; omega
      exact ih (parentIdx node) hplt f2 _ (by omega)
    · simp

theorem heapify_up_eq_some {α : Type} [Inhabited α] {cmp : α → α → Bool}
    (hirr : CmpIrrefl cmp) (seq : List α) (node : Nat) :
    heapify_up_loop cmp (node + 1) seq node = some (heapify_up cmp seq node) := by
  have h := heapify_up_loop_isSome hirr node (node + 1) seq (by omega)
  obtain ⟨r, hr⟩ := Option.isSome_iff_exists.mp h
  rw [hr]
  unfold heapify_up
  rw [hr]
  rfl

theorem heapify_up_stop {α : Type} [Inhabited α] (cmp : α → α → Bool)
    (seq : List α) (node : Nat)
    (h : cmp (getI seq node) (getI seq (parentIdx node)) = false) :
    heapify_up cmp seq node = seq := by
  unfold heapify_up
  rw [heapify_up_loop, h]
  rfl

theorem heapify_up_zero {α : Type} [Inhabited α] {cmp : α → α → Bool}
    (hirr : CmpIrrefl cmp) (seq : List α) :
    heapify_up cmp seq 0 = seq := by
  apply heapify_up_stop
  have : parentIdx 0 = 0 := by unfold parentIdx; rfl
  rw [this]
  exact hirr _

theorem heapify_up_step {α : Type} [Inhabited α] {cmp : α → α → Bool}
    (hirr : CmpIrrefl cmp) (seq : List α) (node : Nat) (hnz : 0 < node)
    (h : cmp (getI seq node) (getI seq (parentIdx node)) = true) :
    heapify_up cmp seq node
      = heapify_up cmp (swapI seq (parentIdx node) node) (parentIdx node) := by
  have hplt : parentIdx node < node := by unfold parentIdx; omega
  have hs := heapify_up_eq_some hirr (swapI seq (parentIdx node) node) (parentIdx node)
  have hs2 := heapify_up_loop_mono cmp (parentIdx node + 1) node _ _ _ (by omega) hs
  unfold heapify_up
  rw [heapify_up_loop, h, hs2]
  rfl

theorem heapify_up_length {α : Type} [Inhabited α] (cmp : α → α → Bool)
    (seq : List α) (node : Nat) :
    (heapify_up cmp seq node).length = seq.length := by
  unfold heapify_up
  cases h : heapify_up_loop cmp (node + 1) seq node with
  | none => rfl
  | some r => exact heapify_up_loop_length cmp _ _ _ _ h

theorem heapify_up_perm {α : Type} [Inhabited α] (cmp : α → α → Bool)
    (seq : List α) (node : Nat) (hn : node < seq.length) :
    (heapify_up cmp seq node).Perm seq := by
  unfold heapify_up
  cases h : heapify_up_loop cmp (node + 1) seq node with
  | none => exact List.Perm.refl _
  | some r => exact heapify_up_loop_perm cmp _ _ _ _ hn h

/-!  ## Sift-Down (`heapify_down_t::operator()`)

Each iteration starts with `child == node` (initially by the declaration
`decltype(node) child = node;`, afterwards because `node = child` just ran),
promotes `child` to the left child and then to the right child whenever that
child is inside the range and "before" the current `child`, and stops when
`node == child`; otherwise it swaps and continues from the winning child.
Termination needs no assumption on the comparator: the winner is strictly
larger than `node` and below `e`, so `e - node + 1` units of fuel suffice. -/

/-- One of the two `if (ary_size > child_idx && cmp(*child_idx_iter, *child))`
updates of the loop-local `child`. -/
def chooseChild {α : Type} [Inhabited α] (cmp : α → α → Bool) (seq : List α)
    (e cand cur : Nat) : Nat :=
  if cand < e ∧ cmp (getI seq cand) (getI seq cur) = true then cand else cur

def winner {α : Type} [Inhabited α] (cmp : α → α → Bool) (seq : List α)
    (e node : Nat) : Nat :=
  chooseChild cmp seq e (rightIdx node) (chooseChild cmp seq e (leftIdx node) node)

def heapify_down_loop {α : Type} [Inhabited α] (cmp : α → α → Bool) :
    Nat → List α → Nat → Nat → Option (List α)
  | 0, _, _, _ => none
  | fuel + 1, seq, e, node =>
    if winner cmp seq e node = node then
      some seq
    else
      heapify_down_loop cmp fuel (swapI seq (winner cmp seq e node) node) e
        (winner cmp seq e node)

/-- The call `heapify_down_type{}(begin, begin + e, begin + node)`. -/
def heapify_down {α : Type} [Inhabited α] (cmp : α → α → Bool) (seq : List α)
    (e node : Nat) : List α :=
  (heapify_down_loop cmp (e - node + 1) seq e node).getD seq

theorem winner_ne_cases {α : Type} [Inhabited α] (cmp : α → α → Bool)
    (seq : List α) (e node : Nat) (h : winner cmp seq e node ≠ node) :
    node < winner cmp seq e node ∧ winner cmp seq e node < e := by
  unfold winner chooseChild leftIdx rightIdx at h ⊢
  split_ifs at h ⊢ <;> omega

theorem heapify_down_loop_length {α : Type} [Inhabited α] (cmp : α → α → Bool) :
    ∀ (fuel : Nat) (seq : List α) (e node : Nat) (r : List α),
      heapify_down_loop cmp fuel seq e node = some r → r.length = seq.length := by
  intro fuel
  induction fuel with
  | zero => intro seq e node r h; simp [heapify_down_loop] at h
  | succ fuel ih =>
    intro seq e node r h
    rw [heapify_down_loop] at h
    split at h
    · cases h; rfl
    · have := ih _ _ _ _ h
      rw [this, length_swapI]

theorem heapify_down_loop_perm {α : Type} [Inhabited α] (cmp : α → α → Bool) :
    ∀ (fuel : Nat) (seq : List α) (e node : Nat) (r : List α),
      e ≤ seq.length → heapify_down_loop cmp fuel seq e node = some r →
      r.Perm seq := by
  intro fuel
  induction fuel with
  | zero => intro seq e node r _ h; simp [heapify_down_loop] at h
  | succ fuel ih =>
    intro seq e node r he h
    rw [heapify_down_loop] at h
    split at h
    · cases h; exact List.Perm.refl _
    · next hw =>
      obtain ⟨h1, h2⟩ := winner_ne_cases cmp seq e node hw
      have h3 : r.Perm (swapI seq (winner cmp seq e node) node) :=
        ih _ _ _ _ (by rw [length_swapI]; omega) h
      exact h3.trans (swapI_perm seq _ node (by omega) (by omega))

theorem heapify_down_loop_mono {α : Type} [Inhabited α] (cmp : α → α → Bool) :
    ∀ (fuel fuel' : Nat) (seq : List α) (e node : Nat) (r : List α),
      fuel ≤ fuel' → heapify_down_loop cmp fuel seq e node = some r →
      heapify_down_loop cmp fuel' seq e node = some r := by
  intro fuel
  induction fuel with
  | zero => intro fuel' seq e node r _ h; simp [heapify_down_loop] at h
  | succ fuel ih =>
    intro fuel' seq e node r hle h
    obtain ⟨f2, rfl⟩ : ∃ f2, fuel' = f2 + 1 := ⟨fuel' - 1, by omega⟩
    rw [heapify_down_loop] at h ⊢
    split at h
    · next hc => rw [if_pos hc]; exact h
    · next hc => rw [if_neg hc]; exact ih f2 _ _ _ _ (by omega) h

theorem heapify_down_loop_isSome {α : Type} [Inhabited α] (cmp : α → α → Bool) :
    ∀ (fuel : Nat) (seq : List α) (e node : Nat), e - node < fuel →
      (heapify_down_loop cmp fuel seq e node).isSome = true := by
  intro fuel
  induction fuel with
  | zero => intro seq e node h; omega
  | succ fuel ih =>
    intro seq e node hf
    rw [heapify_down_loop]
    split
    · simp
    · next hw =>
      obtain ⟨h1, h2⟩ := winner_ne_cases cmp seq e node hw
      exact ih _ _ _ (by omega)

theorem heapify_down_eq_some {α : Type} [Inhabited α] (cmp : α → α → Bool)
    (seq : List α) (e node : Nat) :
    heapify_down_loop cmp (e - node + 1) seq e node
      = some (heapify_down cmp seq e node) := by
  have h := heapify_down_loop_isSome cmp (e - node + 1) seq e node (by omega)
  obtain ⟨r, hr⟩ := Option.isSome_iff_exists.mp h
  rw [hr]
  unfold heapify_down
  rw [hr]
  rfl

theorem heapify_down_stop {α : Type} [Inhabited α] (cmp : α → α → Bool)
    (seq : List α) (e node : Nat) (h : winner cmp seq e node = node) :
    heapify_down cmp seq e node = seq := by
  unfold heapify_down
  rw [heapify_down_loop, if_pos h]
  rfl

theorem heapify_down_step {α : Type} [Inhabited α] (cmp : α → α → Bool)
    (seq : List α) (e node : Nat) (h : winner cmp seq e node ≠ node) :
    heapify_down cmp seq e node
      = heapify_down cmp (swapI seq (winner cmp seq e node) node) e
          (winner cmp seq e node) := by
  obtain ⟨h1, h2⟩ := winner_ne_cases cmp seq e node h
  have hs := heapify_down_eq_some cmp (swapI seq (winner cmp seq e node) node) e
    (winner cmp seq e node)
  have hs2 := heapify_down_loop_mono cmp _ (e - node) _ _ _ _ (by omega) hs
  unfold heapify_down
  rw [heapify_down_loop, if_neg h, hs2, hs]
  rfl

theorem heapify_down_length {α : Type} [Inhabited α] (cmp : α → α → Bool)
    (seq : List α) (e node : Nat) :
    (heapify_down cmp seq e node).length = seq.length := by
  unfold heapify_down
  cases h : heapify_down_loop cmp (e - node + 1) seq e node with
  | none => rfl
  | some r => exact heapify_down_loop_length cmp _ _ _ _ _ h

theorem heapify_down_perm {α : Type} [Inhabited α] (cmp : α → α → Bool)
    (seq : List α) (e node : Nat) (he : e ≤ seq.length) :
    (heapify_down cmp seq e node).Perm seq := by
  unfold heapify_down
  cases h : heapify_down_loop cmp (e - node + 1) seq e node with
  | none => exact List.Perm.refl _
  | some r => exact heapify_down_loop_perm cmp _ _ _ _ _ he h

/-- Sift-Down never touches an index at or beyond the range end. -/
theorem heapify_down_getI_ge {α : Type} [Inhabited α] (cmp : α → α → Bool) :
    ∀ (fuel : Nat) (seq : List α) (e node : Nat) (r : List α) (k : Nat),
      heapify_down_loop cmp fuel seq e node = some r → e ≤ k →
      getI r k = getI seq k := by
  intro fuel
  induction fuel with
  | zero => intro seq e node r k h _; simp [heapify_down_loop] at h
  | succ fuel ih =>
    intro seq e node r k h hk
    rw [heapify_down_loop] at h
    split at h
    · cases h; rfl
    · next hw =>
      obtain ⟨h1, h2⟩ := winner_ne_cases cmp seq e node hw
      rw [ih _ _ _ _ _ h hk]
      exact getI_swapI_other seq _ node k (by omega) (by omega)

theorem heapify_down_getI_of_ge {α : Type} [Inhabited α] (cmp : α → α → Bool)
    (seq : List α) (e node k : Nat) (hk : e ≤ k) :
    getI (heapify_down cmp seq e node) k = getI seq k :=
  heapify_down_getI_ge cmp _ seq e node _ k (heapify_down_eq_some cmp seq e node) hk

/-- The active prefix of the range is permuted by Sift-Down. -/
theorem heapify_down_take_perm {α : Type} [Inhabited α] (cmp : α → α → Bool) :
    ∀ (fuel : Nat) (seq : List α) (e node : Nat) (r : List α),
      e ≤ seq.length → heapify_down_loop cmp fuel seq e node = some r →
      (r.take e).Perm (seq.take e) := by
  intro fuel
  induction fuel with
  | zero => intro seq e node r _ h; simp [heapify_down_loop] at h
  | succ fuel ih =>
    intro seq e node r he h
    rw [heapify_down_loop] at h
    split at h
    · cases h; exact List.Perm.refl _
    · next hw =>
      obtain ⟨h1, h2⟩ := winner_ne_cases cmp seq e node hw
      have h3 := ih _ _ _ _ (by rw [length_swapI]; omega) h
      refine h3.trans ?_
      rw [swapI_take seq e _ node (by omega) (by omega)]
      refine swapI_perm _ _ _ ?_ ?_ <;> simp <;> omega

theorem heapify_down_take_perm_of {α : Type} [Inhabited α] (cmp : α → α → Bool)
    (seq : List α) (e node : Nat) (he : e ≤ seq.length) :
    ((heapify_down cmp seq e node).take e).Perm (seq.take e) :=
  heapify_down_take_perm cmp _ seq e node _ he (heapify_down_eq_some cmp seq e node)

/-!  ## Build-Heap, the container and heap sort -/

/-- Build-Heap: `heapify_t::operator()` runs `heapify_up_type{}(begin, iter)`
for `iter` from `begin` to `end` in increasing order.  The end iterator is
fixed and sift-up never changes the length, so the iteration space is the
index range of the initial sequence. -/
def heapify {α : Type} [Inhabited α] (cmp : α → α → Bool) (seq : List α) :
    List α :=
  (List.range seq.length).foldl (fun s i => heapify_up cmp s i) seq

/-- The constructor `heap_t(begin, end)`: copy the elements, then Build-Heap. -/
def heap_of_list {α : Type} [Inhabited α] (cmp : α → α → Bool)
    (init : List α) : List α :=
  heapify cmp init

/-- The error conditions of §7: `heap_t` throws `std::out_of_range{"empty"}`
from `top`, `pop` and `pop_value`; the hardened `insert_or_update` of §4.5
additionally signals an out-of-range position. -/
inductive HeapErr : Type where
  | emptyContainer : HeapErr
  | indexOutOfRange : HeapErr
deriving DecidableEq

/-- `heap_t::top()`: throws on an empty container, otherwise returns the root
element `(*this)[0]` without modifying the heap. -/
def top {α : Type} [Inhabited α] (h : List α) : Except HeapErr α :=
  if h.isEmpty then Except.error HeapErr.emptyContainer else Except.ok (getI h 0)

/-- The mutation performed by a successful `heap_t::pop()`:
`std::swap(*begin(), *(end() - 1)); array_.resize(size() - 1);
heapify_down_type{}(begin(), end(), begin());` (the sift-down range is the
shrunk sequence). -/
def popF {α : Type} [Inhabited α] (cmp : α → α → Bool) (h : List α) : List α :=
  heapify_down cmp (swapI h 0 (h.length - 1)).dropLast (h.length - 1) 0

/-- `heap_t::pop()`: the emptiness check precedes every mutation, so a failing
call leaves the container in its prior state. -/
def pop {α : Type} [Inhabited α] (cmp : α → α → Bool) (h : List α) :
    Except HeapErr (List α) :=
  if h.isEmpty then Except.error HeapErr.emptyContainer
  else Except.ok (popF cmp h)

/-- `heap_t::pop_value()`: captures `(*this)[0]`, pops, and returns the
captured root together with the shrunk heap. -/
def pop_value {α : Type} [Inhabited α] (cmp : α → α → Bool) (h : List α) :
    Except HeapErr (α × List α) :=
  if h.isEmpty then Except.error HeapErr.emptyContainer
  else Except.ok (getI h 0, popF cmp h)

/-- `heap_t::push(value)`: append, then `heapify_up_type{}(begin(), end() - 1)`
(the new last index is the old length). -/
def push {α : Type} [Inhabited α] (cmp : α → α → Bool) (h : List α) (v : α) :
    List α :=
  heapify_up cmp (h ++ [v]) h.length

/-- `heap_t::insert(position, value)` for `position` equal to `end()` or a
valid index: append via `push`, overwrite in place on equality, otherwise
write the value and sift up or down according to
`cmp_op_type{}(value, *position)` evaluated against the old inhabitant. -/
def insert {α : Type} [Inhabited α] [DecidableEq α] (cmp : α → α → Bool)
    (h : List α) (p : Nat) (v : α) : List α :=
  if p = h.length then push cmp h v
  else if getI h p = v then setI h p v
  else if cmp v (getI h p) = true then heapify_up cmp (setI h p v) p
  else heapify_down cmp (setI h p v) h.length p

/-- Modelled from the spec: §4.5 and §7 require the reimplementation of
`insert_or_update` to reject a position that is neither `end` nor a valid
existing index with an "index out of range" error instead of the
undefined-behavior dereference of the C++ reference, leaving the heap
unchanged; the in-range behavior is that of `heap_t::insert`.  The call is
modelled as a transition of the container state paired with its outcome. -/
def insert_or_update {α : Type} [Inhabited α] [DecidableEq α]
    (cmp : α → α → Bool) (h : List α) (p : Nat) (v : α) :
    List α × Except HeapErr Unit :=
  if p = h.length ∨ p < h.length then (insert cmp h p v, Except.ok ())
  else (h, Except.error HeapErr.indexOutOfRange)

/-- A `heap_t::pop()` call viewed as a transition of the container state
paired with its outcome: in the source the emptiness test precedes every
mutation, so the exceptional outcome carries the unchanged state. -/
def pop_method {α : Type} [Inhabited α] (cmp : α → α → Bool) (h : List α) :
    List α × Except HeapErr Unit :=
  if h.isEmpty then (h, Except.error HeapErr.emptyContainer)
  else (popF cmp h, Except.ok ())

/-- Repeated `pop_value` until empty, fueled by the (strictly decreasing)
length of the heap. -/
def pop_all_loop {α : Type} [Inhabited α] (cmp : α → α → Bool) :
    Nat → List α → List α
  | 0, _ => []
  | fuel + 1, h =>
    if h.isEmpty then [] else getI h 0 :: pop_all_loop cmp fuel (popF cmp h)

/-- The extraction sequence: values returned by calling `pop_value` until the
container is empty. -/
def pop_all {α : Type} [Inhabited α] (cmp : α → α → Bool) (h : List α) :
    List α :=
  pop_all_loop cmp h.length h

/-- One `while (begin < end)` iteration of `heap_sort_t::operator()`, indexed
by the distance between the moving `end` and the fixed `begin`:
save `*begin`, move `*(end - 1)` into the root, shrink, sift the root down
over the shrunk range, and store the saved value in the vacated slot. -/
def heap_sort_loop {α : Type} [Inhabited α] (cmp : α → α → Bool) :
    List α → Nat → List α
  | a, 0 => a
  | a, e + 1 =>
    heap_sort_loop cmp
      (setI (heapify_down cmp (setI a 0 (getI a e)) e 0) e (getI a 0)) e

/-- `heap_sort_t::operator()(begin, end)`: on a non-empty range, Build-Heap
and then drain by swap-and-shrink. -/
def heap_sort_t {α : Type} [Inhabited α] (cmp : α → α → Bool) (a : List α) :
    List α :=
  if a.isEmpty then a else heap_sort_loop cmp (heapify cmp a) a.length

/-- `std::greater<int>`, the comparator of `max_heapify_t` / `max_heap_t`:
`cmp a b` is `a > b`. -/
def maxCmp (a b : Int) : Bool := decide (b < a)

/-- `std::less<int>`, the comparator of `min_heapify_t` / `min_heap_t`:
`cmp a b` is `a < b`. -/
def minCmp (a b : Int) : Bool := decide (a < b)

/-- `heap_sort_ascending`: `heap_sort_t` with `max_heapify_t`. -/
def heap_sort_ascending (a : List Int) : List Int :=
  heap_sort_t maxCmp a

/-- `heap_sort_decending` (spelling from the source): `heap_sort_t` with
`min_heapify_t`. -/
def heap_sort_decending (a : List Int) : List Int :=
  heap_sort_t minCmp a

/-!  ## The heap invariant -/

/-- The invariant the code maintains on the first `e` slots: no child is
"before" its parent (the non-strict reading of §3, "no child should be
before its parent"). -/
def heapInvUpTo {α : Type} [Inhabited α] (cmp : α → α → Bool) (a : List α)
    (e : Nat) : Prop :=
  ∀ j, j < e → 0 < j → cmp (getI a j) (getI a (parentIdx j)) = false

/-- The heap invariant over the whole backing sequence. -/
def heapInv {α : Type} [Inhabited α] (cmp : α → α → Bool) (a : List α) : Prop :=
  heapInvUpTo cmp a a.length

/-- The literal parent/child invariant sentence of §3 and §8:
`before(seq[i], seq[left(i)])` and `before(seq[i], seq[right(i)])` hold (with
the strict injected ordering) for every in-range child. -/
def heapInvStrict {α : Type} [Inhabited α] (cmp : α → α → Bool) (a : List α) :
    Prop :=
  ∀ i, i < a.length → ∀ j, j < a.length → (j = leftIdx i ∨ j = rightIdx i) →
    cmp (getI a i) (getI a j) = true

instance {α : Type} [Inhabited α] (cmp : α → α → Bool) (a : List α) (e : Nat) :
    Decidable (heapInvUpTo cmp a e) := by
  unfold heapInvUpTo; infer_instance

instance {α : Type} [Inhabited α] (cmp : α → α → Bool) (a : List α) :
    Decidable (heapInv cmp a) := by
  unfold heapInv; infer_instance

instance {α : Type} [Inhabited α] (cmp : α → α → Bool) (a : List α) :
    Decidable (heapInvStrict cmp a) := by
  unfold heapInvStrict; infer_instance

/-!  ## Operation sequences (for the invariant-preservation claim) -/

/-- A mutating call of the public container interface. -/
inductive HeapOp (α : Type) : Type where
  | pushOp (v : α) : HeapOp α
  | popOp : HeapOp α
  | insertOp (p : Nat) (v : α) : HeapOp α

/-- Applies one operation to the container state.  A `pop` of an empty heap
throws before mutating, leaving the state unchanged; an `insert` position
beyond `end` is rejected without mutation (the hardening of §4.5 — the C++
reference would dereference out of range). -/
def applyOp {α : Type} [Inhabited α] [DecidableEq α] (cmp : α → α → Bool)
    (h : List α) : HeapOp α → List α
  | HeapOp.pushOp v => push cmp h v
  | HeapOp.popOp => if h.isEmpty then h else popF cmp h
  | HeapOp.insertOp p v => if p ≤ h.length then insert cmp h p v else h

/-- The container state after constructing from `init` and running `ops`. -/
def runOps {α : Type} [Inhabited α] [DecidableEq α] (cmp : α → α → Bool)
    (init : List α) (ops : List (HeapOp α)) : List α :=
  ops.foldl (applyOp cmp) (heap_of_list cmp init)

/-!  ## The reference Sift-Up loop of spec §4.2 -/

/-- Modelled from the spec (§4.2 contract, for the refinement claim):
repeatedly, while `node_index != 0` and
`before(sequence[node_index], sequence[parent(node_index)])` holds, swap the
node with its parent and set `node_index = parent(node_index)`.  The node
index strictly decreases, so `node + 1` rounds of fuel always suffice. -/
def sift_up_spec_loop {α : Type} [Inhabited α] (cmp : α → α → Bool) :
    Nat → List α → Nat → List α
  | 0, seq, _ => seq
  | fuel + 1, seq, node =>
    if node ≠ 0 ∧ cmp (getI seq node) (getI seq (parentIdx node)) = true then
      sift_up_spec_loop cmp fuel (swapI seq (parentIdx node) node) (parentIdx node)
    else seq

/-- The Sift-Up contract of spec §4.2 as a function. -/
def sift_up_spec {α : Type} [Inhabited α] (cmp : α → α → Bool) (seq : List α)
    (node : Nat) : List α :=
  sift_up_spec_loop cmp (node + 1) seq node

/-!  ## Index arithmetic -/

theorem parentIdx_lt (j : Nat) (h : 0 < j) : parentIdx j < j := by
  unfold parentIdx; omega

theorem parentIdx_zero : parentIdx 0 = 0 := rfl

theorem parentIdx_eq_iff (j n : Nat) (h : 0 < j) :
    parentIdx j = n ↔ (j = leftIdx n ∨ j = rightIdx n) := by
  unfold parentIdx leftIdx rightIdx; omega

theorem lt_leftIdx (n : Nat) : n < leftIdx n := by unfold leftIdx; omega

theorem lt_rightIdx (n : Nat) : n < rightIdx n := by unfold rightIdx; omega

theorem leftIdx_ne_rightIdx (n : Nat) : leftIdx n ≠ rightIdx n := by
  unfold leftIdx rightIdx; omega

/-!  ## Characterization of the Sift-Down child selection -/

theorem chooseChild_pos {α : Type} [Inhabited α] {cmp : α → α → Bool}
    {seq : List α} {e cand cur : Nat}
    (h : cand < e ∧ cmp (getI seq cand) (getI seq cur) = true) :
    chooseChild cmp seq e cand cur = cand := by
  unfold chooseChild; exact if_pos h

theorem chooseChild_neg {α : Type} [Inhabited α] {cmp : α → α → Bool}
    {seq : List α} {e cand cur : Nat}
    (h : ¬(cand < e ∧ cmp (getI seq cand) (getI seq cur) = true)) :
    chooseChild cmp seq e cand cur = cur := by
  unfold chooseChild; exact if_neg h

theorem winner_main {α : Type} [Inhabited α] (cmp : α → α → Bool)
    (sc : StrictCmp cmp) (seq : List α) (e node : Nat) :
    (winner cmp seq e node = node ∧
      (leftIdx node < e → cmp (getI seq (leftIdx node)) (getI seq node) = false) ∧
      (rightIdx node < e → cmp (getI seq (rightIdx node)) (getI seq node) = false))
    ∨ (winner cmp seq e node ≠ node ∧
      (winner cmp seq e node = leftIdx node ∨ winner cmp seq e node = rightIdx node) ∧
      winner cmp seq e node < e ∧
      cmp (getI seq (winner cmp seq e node)) (getI seq node) = true ∧
      (leftIdx node < e → leftIdx node ≠ winner cmp seq e node →
        cmp (getI seq (leftIdx node)) (getI seq (winner cmp seq e node)) = false) ∧
      (rightIdx node < e → rightIdx node ≠ winner cmp seq e node →
        cmp (getI seq (rightIdx node)) (getI seq (winner cmp seq e node)) = false)) := by
  have hlt := lt_leftIdx node
  have hrt := lt_rightIdx node
  have hlr := leftIdx_ne_rightIdx node
  have hlr2 : leftIdx node < rightIdx node := by unfold leftIdx rightIdx; omega
  unfold winner
  by_cases hA : leftIdx node < e ∧ cmp (getI seq (leftIdx node)) (getI seq node) = true
  · rw [chooseChild_pos hA]
    by_cases hB : rightIdx node < e ∧
        cmp (getI seq (rightIdx node)) (getI seq (leftIdx node)) = true
    · rw [chooseChild_pos hB]
      refine Or.inr ⟨by omega, Or.inr rfl, hB.1, sc.tr _ _ _ hB.2 hA.2, ?_, ?_⟩
      · intro _ _
        exact sc.asymm hB.2
      · intro _ hne
        exact absurd rfl hne
    · rw [chooseChild_neg hB]
      refine Or.inr ⟨by omega, Or.inl rfl, hA.1, hA.2, ?_, ?_⟩
      · intro _ hne
        exact absurd rfl hne
      · intro hre _
        cases hc : cmp (getI seq (rightIdx node)) (getI seq (leftIdx node))
        · rfl
        · exact absurd ⟨hre, hc⟩ hB
  · rw [chooseChild_neg hA]
    by_cases hB : rightIdx node < e ∧
        cmp (getI seq (rightIdx node)) (getI seq node) = true
    · rw [chooseChild_pos hB]
      refine Or.inr ⟨by omega, Or.inr rfl, hB.1, hB.2, ?_, ?_⟩
      · intro hle _
        cases hc : cmp (getI seq (leftIdx node)) (getI seq node)
        · exact sc.stopped hc hB.2
        · exact absurd ⟨hle, hc⟩ hA
      · intro _ hne
        exact absurd rfl hne
    · rw [chooseChild_neg hB]
      refine Or.inl ⟨rfl, ?_, ?_⟩
      · intro hle
        cases hc : cmp (getI seq (leftIdx node)) (getI seq node)
        · rfl
        · exact absurd ⟨hle, hc⟩ hA
      · intro hre
        cases hc : cmp (getI seq (rightIdx node)) (getI seq node)
        · rfl
        · exact absurd ⟨hre, hc⟩ hB

/-!  ## Restoration lemmas -/

/-- In a valid heap prefix no element is "before" the root. -/
theorem rootLe {α : Type} [Inhabited α] {cmp : α → α → Bool}
    (sc : StrictCmp cmp) {a : List α} {e : Nat} (H : heapInvUpTo cmp a e) :
    ∀ j, j < e → cmp (getI a j) (getI a 0) = false := by
  intro j
  induction j using Nat.strong_induction_on with
  | _ j ih =>
    intro hj
    by_cases hj0 : j = 0
    · subst hj0
      exact sc.irrefl _
    · have h1 := H j hj (by omega)
      have hp := parentIdx_lt j (by omega)
      exact sc.rtrans h1 (ih (parentIdx j) hp (by omega))

/-- Sift-Down restores the invariant over `[0, e)` when every parent/child
pair except possibly the pairs below `n` satisfies it and, when `n` has a
parent, the children of `n` are not "before" the parent of `n`. -/
theorem heapify_down_restore {α : Type} [Inhabited α] {cmp : α → α → Bool}
    (sc : StrictCmp cmp) :
    ∀ (d : Nat) (a : List α) (e n : Nat), e - n ≤ d → e ≤ a.length →
      (∀ j, j < e → 0 < j → parentIdx j ≠ n →
        cmp (getI a j) (getI a (parentIdx j)) = false) →
      (0 < n → ∀ j, j < e → parentIdx j = n →
        cmp (getI a j) (getI a (parentIdx n)) = false) →
      heapInvUpTo cmp (heapify_down cmp a e n) e := by
  intro d
  induction d with
  | zero =>
    intro a e n hd he H1 _
    have hen : e ≤ n := by omega
    have hw : winner cmp a e n = n := by
      rcases winner_main cmp sc a e n with ⟨hw, _, _⟩ | ⟨_, hmem, hwe, _, _, _⟩
      · exact hw
      · have h1 := lt_leftIdx n
        have h2 := lt_rightIdx n
        rcases hmem with h3 | h3 <;> omega
    rw [heapify_down_stop cmp a e n hw]
    intro j hj hj0
    have hp := parentIdx_lt j hj0
    exact H1 j hj hj0 (by omega)
  | succ d ih =>
    intro a e n hd he H1 H2
    rcases winner_main cmp sc a e n with ⟨hw, hwl, hwr⟩ | ⟨hne, hmem, hwe, hbef, hol, hor⟩
    · rw [heapify_down_stop cmp a e n hw]
      intro j hj hj0
      by_cases hpj : parentIdx j = n
      · rw [hpj]
        rcases (parentIdx_eq_iff j n hj0).mp hpj with hjl | hjl
        · rw [hjl]
          exact hwl (hjl ▸ hj)
        · rw [hjl]
          exact hwr (hjl ▸ hj)
      · exact H1 j hj hj0 hpj
    · have hnw : n < winner cmp a e n := by
        have h1 := lt_leftIdx n
        have h2 := lt_rightIdx n
        rcases hmem with h3 | h3 <;> omega
      have hn_len : n < a.length := by omega
      have hw_len : winner cmp a e n < a.length := by omega
      have haw : getI (swapI a (winner cmp a e n) n) (winner cmp a e n) = getI a n :=
        getI_swapI_left a _ n hw_len
      have han : getI (swapI a (winner cmp a e n) n) n = getI a (winner cmp a e n) :=
        getI_swapI_right a _ n hn_len
      have hother : ∀ k, k ≠ winner cmp a e n → k ≠ n →
          getI (swapI a (winner cmp a e n) n) k = getI a k := by
        intro k h1 h2
        exact getI_swapI_other a _ n k h1 h2
      have hpw : parentIdx (winner cmp a e n) = n :=
        (parentIdx_eq_iff _ n (by omega)).mpr hmem
      rw [heapify_down_step cmp a e n hne]
      apply ih (swapI a (winner cmp a e n) n) e (winner cmp a e n) (by omega)
        (by rw [length_swapI]; omega)
      · -- the invariant holds except possibly below the winner
        intro j hj hj0 hpjw
        by_cases hjw : j = winner cmp a e n
        · subst hjw
          rw [hpw, haw, han]
          exact sc.asymm hbef
        · by_cases hpjn : parentIdx j = n
          · have hj_ne_n : j ≠ n := by
              have := parentIdx_lt j hj0
              omega
            rw [hpjn, hother j hjw hj_ne_n, han]
            rcases (parentIdx_eq_iff j n hj0).mp hpjn with hjl | hjl
            · rw [hjl]
              exact hol (hjl ▸ hj) (hjl ▸ hjw)
            · rw [hjl]
              exact hor (hjl ▸ hj) (hjl ▸ hjw)
          · by_cases hjn : j = n
            · subst hjn
              have hpn := parentIdx_lt j hj0
              rw [han, hother (parentIdx j) (by omega) (by omega)]
              exact H2 hj0 _ hwe hpw
            · have hpn := parentIdx_lt j hj0
              rw [hother j hjw hjn, hother (parentIdx j) hpjw hpjn]
              exact H1 j hj hj0 hpjn
      · -- the children of the winner are not before its parent `n`
        intro _ j hj hpj
        have hj0 : 0 < j := by
          by_contra h0
          have hj00 : j = 0 := by omega
          rw [hj00, parentIdx_zero] at hpj
          omega
        have hjgt : winner cmp a e n < j := hpj ▸ parentIdx_lt j hj0
        rw [hpw, hother j (by omega) (by omega), han, ← hpj]
        exact H1 j hj hj0 (by rw [hpj]; omega)

/-- Sift-Up restores the invariant over `[0, e)` when every parent/child pair
except possibly `(k, parent k)` satisfies it and, when `k` has a parent, the
children of `k` are not "before" the parent of `k`. -/
theorem heapify_up_restore {α : Type} [Inhabited α] {cmp : α → α → Bool}
    (sc : StrictCmp cmp) :
    ∀ (k : Nat) (a : List α) (e : Nat), k < e → e ≤ a.length →
      (∀ j, j < e → 0 < j → j ≠ k →
        cmp (getI a j) (getI a (parentIdx j)) = false) →
      (0 < k → ∀ j, j < e → parentIdx j = k →
        cmp (getI a j) (getI a (parentIdx k)) = false) →
      heapInvUpTo cmp (heapify_up cmp a k) e := by
  intro k
  induction k using Nat.strong_induction_on with
  | _ k ih =>
    intro a e hk he H1 H2
    by_cases hk0 : k = 0
    · subst hk0
      rw [heapify_up_zero sc.irrefl]
      intro j hj hj0
      exact H1 j hj hj0 (by omega)
    · have hkpos : 0 < k := by omega
      have hplt := parentIdx_lt k hkpos
      cases hc : cmp (getI a k) (getI a (parentIdx k)) with
      | false =>
        rw [heapify_up_stop cmp a k hc]
        intro j hj hj0
        by_cases hjk : j = k
        · subst hjk
          exact hc
        · exact H1 j hj hj0 hjk
      | true =>
        rw [heapify_up_step sc.irrefl a k hkpos hc]
        have hk_len : k < a.length := by omega
        have hp_len : parentIdx k < a.length := by omega
        have hap : getI (swapI a (parentIdx k) k) (parentIdx k) = getI a k :=
          getI_swapI_left a _ k hp_len
        have hak : getI (swapI a (parentIdx k) k) k = getI a (parentIdx k) :=
          getI_swapI_right a _ k hk_len
        have hother : ∀ m, m ≠ parentIdx k → m ≠ k →
            getI (swapI a (parentIdx k) k) m = getI a m := by
          intro m h1 h2
          exact getI_swapI_other a _ k m h1 h2
        apply ih (parentIdx k) hplt _ e (by omega) (by rw [length_swapI]; omega)
        · -- every pair except `(parent k, grandparent)` holds after the swap
          intro j hj hj0 hjp
          by_cases hjk : j = k
          · subst hjk
            have hpj : parentIdx j = parentIdx j := rfl
            rw [hak, hap]
            exact sc.asymm hc
          · by_cases hpjk : parentIdx j = k
            · -- a child of `k`: its new parent value is the old parent of `k`
              have hj_ne_p : j ≠ parentIdx k := by
                have := parentIdx_lt j hj0
                omega
              rw [hpjk, hother j hj_ne_p hjk, hak]
              exact H2 hkpos j hj hpjk
            · by_cases hpjp : parentIdx j = parentIdx k
              · -- the sibling of `k`: compare against the moved-up value
                rw [hpjp, hother j hjp hjk, hap]
                have h1 : cmp (getI a j) (getI a (parentIdx k)) = false := by
                  have := H1 j hj hj0 hjk
                  rw [hpjp] at this
                  exact this
                exact sc.stopped h1 hc
              · rw [hother j hjp hjk, hother (parentIdx j) hpjp hpjk]
                exact H1 j hj hj0 hjk
        · -- the children of `parent k` are not before the grandparent
          intro hp0 j hj hpj
          have hj0 : 0 < j := by
            by_contra h0
            have hj00 : j = 0 := by omega
            rw [hj00, parentIdx_zero] at hpj
            omega
          have hjgt : parentIdx k < j := hpj ▸ parentIdx_lt j hj0
          have hpp := parentIdx_lt (parentIdx k) hp0
          rw [hother (parentIdx (parentIdx k)) (by omega) (by omega)]
          by_cases hjk : j = k
          · subst hjk
            rw [hak]
            exact H1 (parentIdx j) (by omega) hp0 (by omega)
          · rw [hother j (by omega) hjk]
            have h1 : cmp (getI a j) (getI a (parentIdx k)) = false := by
              have := H1 j hj hj0 hjk
              rw [hpj] at this
              exact this
            have h2 : cmp (getI a (parentIdx k)) (getI a (parentIdx (parentIdx k))) = false :=
              H1 (parentIdx k) (by omega) hp0 (by omega)
            exact sc.rtrans h1 h2

/-!  ## Invariant preservation by the container operations -/

theorem getI_append_left {α : Type} [Inhabited α] (l l2 : List α) (j : Nat)
    (h : j < l.length) : getI (l ++ l2) j = getI l j := by
  unfold getI
  rw [List.getD_eq_getElem _ _ h, List.getD_eq_getElem _ _ (by simp; omega)]
  exact List.getElem_append_left h

theorem getI_dropLast {α : Type} [Inhabited α] (l : List α) (j : Nat)
    (h : j < l.length - 1) : getI l.dropLast j = getI l j := by
  unfold getI
  rw [List.getD_eq_getElem _ _ (by simp; omega), List.getD_eq_getElem _ _ (by omega)]
  exact List.getElem_dropLast l j _

theorem heapify_stages {α : Type} [Inhabited α] {cmp : α → α → Bool}
    (sc : StrictCmp cmp) (a : List α) :
    ∀ n, n ≤ a.length →
      ((List.range n).foldl (fun s i => heapify_up cmp s i) a).length = a.length ∧
      heapInvUpTo cmp ((List.range n).foldl (fun s i => heapify_up cmp s i) a) n ∧
      ((List.range n).foldl (fun s i => heapify_up cmp s i) a).Perm a := by
  intro n
  induction n with
  | zero =>
    intro _
    refine ⟨rfl, ?_, List.Perm.refl a⟩
    intro j hj _
    omega
  | succ n ih =>
    intro hn
    obtain ⟨hlen, hinv, hperm⟩ := ih (by omega)
    rw [List.range_succ, List.foldl_append]
    set b := (List.range n).foldl (fun s i => heapify_up cmp s i) a with hb
    simp only [List.foldl_cons, List.foldl_nil]
    refine ⟨?_, ?_, ?_⟩
    · rw [heapify_up_length, hlen]
    · apply heapify_up_restore sc n b (n + 1) (by omega) (by omega)
      · intro j hj hj0 hjn
        exact hinv j (by omega) hj0
      · intro hn0 j hj hpj
        rcases (parentIdx_eq_iff j n (by
            by_contra h0
            have : j = 0 := by omega
            rw [this, parentIdx_zero] at hpj
            omega)).mp hpj with hjl | hjl
        · rw [hjl] at hj
          unfold leftIdx at hj
          omega
        · rw [hjl] at hj
          unfold rightIdx at hj
          omega
    · exact (heapify_up_perm cmp b n (by omega)).trans hperm

theorem foldl_heapify_up_length {α : Type} [Inhabited α] (cmp : α → α → Bool) :
    ∀ (idxs : List Nat) (a : List α),
      (idxs.foldl (fun s i => heapify_up cmp s i) a).length = a.length := by
  intro idxs
  induction idxs with
  | nil => intro a; rfl
  | cons i idxs ih =>
    intro a
    rw [List.foldl_cons, ih, heapify_up_length]

theorem heapify_length {α : Type} [Inhabited α] (cmp : α → α → Bool)
    (a : List α) : (heapify cmp a).length = a.length := by
  unfold heapify
  exact foldl_heapify_up_length cmp _ a

theorem heapify_inv {α : Type} [Inhabited α] {cmp : α → α → Bool}
    (sc : StrictCmp cmp) (a : List α) : heapInv cmp (heapify cmp a) := by
  obtain ⟨hlen, hinv, _⟩ := heapify_stages sc a a.length (le_refl _)
  unfold heapInv heapify
  rw [show ((List.range a.length).foldl (fun s i => heapify_up cmp s i) a).length
    = a.length from hlen]
  exact hinv

theorem heapify_perm {α : Type} [Inhabited α] {cmp : α → α → Bool}
    (sc : StrictCmp cmp) (a : List α) : (heapify cmp a).Perm a :=
  (heapify_stages sc a a.length (le_refl _)).2.2

theorem push_length {α : Type} [Inhabited α] (cmp : α → α → Bool) (h : List α)
    (v : α) : (push cmp h v).length = h.length + 1 := by
  unfold push
  rw [heapify_up_length]
  simp

theorem push_perm {α : Type} [Inhabited α] (cmp : α → α → Bool) (h : List α)
    (v : α) : (push cmp h v).Perm (h ++ [v]) := by
  unfold push
  exact heapify_up_perm cmp _ _ (by simp)

theorem push_inv {α : Type} [Inhabited α] {cmp : α → α → Bool}
    (sc : StrictCmp cmp) (h : List α) (v : α) (hh : heapInv cmp h) :
    heapInv cmp (push cmp h v) := by
  unfold heapInv
  rw [push_length]
  unfold push
  apply heapify_up_restore sc h.length (h ++ [v]) (h.length + 1) (by omega) (by simp)
  · intro j hj hj0 hjn
    have hjlt : j < h.length := by omega
    have hp := parentIdx_lt j hj0
    rw [getI_append_left h [v] j hjlt, getI_append_left h [v] _ (by omega)]
    exact hh j hjlt hj0
  · intro hn0 j hj hpj
    rcases (parentIdx_eq_iff j h.length (by
        by_contra h0
        have : j = 0 := by omega
        rw [this, parentIdx_zero] at hpj
        omega)).mp hpj with hjl | hjl
    · rw [hjl] at hj
      unfold leftIdx at hj
      omega
    · rw [hjl] at hj
      unfold rightIdx at hj
      omega

theorem popF_length {α : Type} [Inhabited α] (cmp : α → α → Bool)
    (h : List α) : (popF cmp h).length = h.length - 1 := by
  unfold popF
  rw [heapify_down_length]
  simp [length_swapI]

theorem popF_inv {α : Type} [Inhabited α] {cmp : α → α → Bool}
    (sc : StrictCmp cmp) (h : List α) (hh : heapInv cmp h) :
    heapInv cmp (popF cmp h) := by
  unfold heapInv
  rw [popF_length]
  unfold popF
  apply heapify_down_restore sc (h.length - 1 + 1) _ (h.length - 1) 0 (by omega)
    (by simp [length_swapI])
  · intro j hj hj0 hpj
    have hp := parentIdx_lt j hj0
    have hlen : 2 ≤ h.length := by omega
    have hb1 : j < (swapI h 0 (h.length - 1)).length - 1 := by
      rw [length_swapI]; omega
    have hb2 : parentIdx j < (swapI h 0 (h.length - 1)).length - 1 := by
      rw [length_swapI]; omega
    rw [getI_dropLast _ j hb1, getI_dropLast _ _ hb2,
      getI_swapI_other h 0 (h.length - 1) j (by omega) (by omega),
      getI_swapI_other h 0 (h.length - 1) _ (by omega) (by omega)]
    exact hh j (by omega) hj0
  · intro h0
    omega

theorem dropLast_append_getI {α : Type} [Inhabited α] (l : List α)
    (hne : l ≠ []) : l.dropLast ++ [getI l (l.length - 1)] = l := by
  have hlen : 0 < l.length := List.length_pos.mpr hne
  rw [getI_eq_getElem _ _ (by omega), ← List.getLast_eq_getElem]
  exact List.dropLast_concat_getLast hne

theorem popF_perm {α : Type} [Inhabited α] (cmp : α → α → Bool) (h : List α)
    (hne : h ≠ []) : (getI h 0 :: popF cmp h).Perm h := by
  have hlen : 1 ≤ h.length := by
    cases h
    · exact absurd rfl hne
    · simp
  have h1 : (popF cmp h).Perm (swapI h 0 (h.length - 1)).dropLast := by
    unfold popF
    exact heapify_down_perm cmp _ _ 0 (by simp [length_swapI])
  have h2 : getI (swapI h 0 (h.length - 1)) (h.length - 1) = getI h 0 :=
    getI_swapI_right h 0 (h.length - 1) (by omega)
  have hne2 : swapI h 0 (h.length - 1) ≠ [] := by
    intro hx
    have := length_swapI h 0 (h.length - 1)
    rw [hx] at this
    simp at this
    omega
  have h3 := dropLast_append_getI (swapI h 0 (h.length - 1)) hne2
  rw [length_swapI, h2] at h3
  have p1 : (getI h 0 :: popF cmp h).Perm
      (getI h 0 :: (swapI h 0 (h.length - 1)).dropLast) := h1.cons _
  have p2 : (getI h 0 :: (swapI h 0 (h.length - 1)).dropLast).Perm
      ((swapI h 0 (h.length - 1)).dropLast ++ [getI h 0]) := by
    rw [← List.singleton_append]
    exact List.perm_append_comm
  have p3 : ((swapI h 0 (h.length - 1)).dropLast ++ [getI h 0]).Perm h := by
    rw [h3]
    exact swapI_perm h 0 (h.length - 1) (by omega) (by omega)
  exact p1.trans (p2.trans p3)

theorem insert_inv {α : Type} [Inhabited α] [DecidableEq α]
    {cmp : α → α → Bool} (sc : StrictCmp cmp) (h : List α) (p : Nat) (v : α)
    (hh : heapInv cmp h) (hp : p < h.length) :
    heapInv cmp (insert cmp h p v) := by
  unfold insert
  rw [if_neg (by omega)]
  by_cases heq : getI h p = v
  · rw [if_pos heq, ← heq, setI_getI_self]
    exact hh
  · rw [if_neg heq]
    by_cases hc : cmp v (getI h p) = true
    · rw [if_pos hc]
      unfold heapInv
      rw [heapify_up_length, length_setI]
      apply heapify_up_restore sc p (setI h p v) h.length hp (by rw [length_setI])
      · intro j hj hj0 hjp
        have hpj := parentIdx_lt j hj0
        by_cases hpjp : parentIdx j = p
        · rw [hpjp, getI_setI_ne _ _ _ _ (by omega), getI_setI_eq _ _ _ hp]
          exact sc.stopped (hpjp ▸ hh j hj hj0) hc
        · rw [getI_setI_ne _ _ _ _ (by omega), getI_setI_ne _ _ _ _ (by omega)]
          exact hh j hj hj0
      · intro hp0 j hj hpj
        have hj0 : 0 < j := by
          by_contra h0
          have : j = 0 := by omega
          rw [this, parentIdx_zero] at hpj
          omega
        have hjgt : p < j := hpj ▸ parentIdx_lt j hj0
        have hpp := parentIdx_lt p hp0
        rw [getI_setI_ne _ _ _ _ (by omega), getI_setI_ne _ _ _ _ (by omega)]
        exact sc.rtrans (hpj ▸ hh j hj hj0) (hh p hp hp0)
    · have hc2 : cmp v (getI h p) = false := by simpa using hc
      rw [if_neg hc]
      unfold heapInv
      rw [heapify_down_length, length_setI]
      apply heapify_down_restore sc h.length (setI h p v) h.length p (by omega)
        (by rw [length_setI])
      · intro j hj hj0 hpjp
        have hpj := parentIdx_lt j hj0
        by_cases hjp : j = p
        · subst hjp
          rw [getI_setI_eq _ _ _ hp, getI_setI_ne _ _ _ _ (by omega)]
          exact sc.rtrans hc2 (hh j hj hj0)
        · rw [getI_setI_ne _ _ _ _ (by omega), getI_setI_ne _ _ _ _ (by omega)]
          exact hh j hj hj0
      · intro hp0 j hj hpj
        have hj0 : 0 < j := by
          by_contra h0
          have : j = 0 := by omega
          rw [this, parentIdx_zero] at hpj
          omega
        have hjgt : p < j := hpj ▸ parentIdx_lt j hj0
        have hpp := parentIdx_lt p hp0
        rw [getI_setI_ne _ _ _ _ (by omega), getI_setI_ne _ _ _ _ (by omega)]
        exact sc.rtrans (hpj ▸ hh j hj hj0) (hh p hp hp0)

theorem insert_perm {α : Type} [Inhabited α] [DecidableEq α]
    (cmp : α → α → Bool) (h : List α) (p : Nat) (v : α) (hp : p < h.length) :
    (getI h p :: insert cmp h p v).Perm (v :: h) := by
  unfold insert
  rw [if_neg (by omega)]
  by_cases heq : getI h p = v
  · rw [if_pos heq]
    exact getI_cons_setI_perm h p v hp
  · rw [if_neg heq]
    by_cases hc : cmp v (getI h p) = true
    · rw [if_pos hc]
      have h1 : (heapify_up cmp (setI h p v) p).Perm (setI h p v) :=
        heapify_up_perm cmp _ p (by rw [length_setI]; omega)
      exact (h1.cons _).trans (getI_cons_setI_perm h p v hp)
    · rw [if_neg hc]
      have h1 : (heapify_down cmp (setI h p v) h.length p).Perm (setI h p v) :=
        heapify_down_perm cmp _ _ p (by rw [length_setI])
      exact (h1.cons _).trans (getI_cons_setI_perm h p v hp)

theorem insert_length {α : Type} [Inhabited α] [DecidableEq α]
    (cmp : α → α → Bool) (h : List α) (p : Nat) (v : α) (hp : p < h.length) :
    (insert cmp h p v).length = h.length := by
  unfold insert
  rw [if_neg (by omega)]
  by_cases heq : getI h p = v
  · rw [if_pos heq, length_setI]
  · rw [if_neg heq]
    by_cases hc : cmp v (getI h p) = true
    · rw [if_pos hc, heapify_up_length, length_setI]
    · rw [if_neg hc, heapify_down_length, length_setI]

/-!  ## The extraction sequence -/

theorem pop_all_loop_congr {α : Type} [Inhabited α] (cmp : α → α → Bool) :
    ∀ (fuel fuel' : Nat) (h : List α), h.length ≤ fuel → h.length ≤ fuel' →
      pop_all_loop cmp fuel h = pop_all_loop cmp fuel' h := by
  intro fuel
  induction fuel with
  | zero =>
    intro fuel' h hf hf'
    have hnil : h = [] := List.length_eq_zero.mp (by omega)
    subst hnil
    cases fuel' with
    | zero => rfl
    | succ f2 => simp [pop_all_loop]
  | succ fuel ih =>
    intro fuel' h hf hf'
    cases fuel' with
    | zero =>
      have hnil : h = [] := List.length_eq_zero.mp (by omega)
      subst hnil
      simp [pop_all_loop]
    | succ f2 =>
      rw [pop_all_loop, pop_all_loop]
      by_cases hemp : h.isEmpty = true
      · rw [if_pos hemp, if_pos hemp]
      · rw [if_neg hemp, if_neg hemp]
        have hlen : 1 ≤ h.length := by
          cases h
          · simp at hemp
          · simp
        have hpl : (popF cmp h).length = h.length - 1 := popF_length cmp h
        rw [ih f2 (popF cmp h) (by omega) (by omega)]

theorem pop_all_unfold {α : Type} [Inhabited α] (cmp : α → α → Bool)
    (h : List α) :
    pop_all cmp h
      = if h.isEmpty then [] else getI h 0 :: pop_all cmp (popF cmp h) := by
  unfold pop_all
  cases hl : h.length with
  | zero =>
    have hnil : h = [] := List.length_eq_zero.mp hl
    subst hnil
    rfl
  | succ n =>
    rw [pop_all_loop]
    by_cases hemp : h.isEmpty = true
    · rw [if_pos hemp, if_pos hemp]
    · rw [if_neg hemp, if_neg hemp]
      have hpl : (popF cmp h).length = h.length - 1 := popF_length cmp h
      rw [pop_all_loop_congr cmp n (popF cmp h).length (popF cmp h) (by omega)
        (le_refl _)]

theorem pop_all_spec {α : Type} [Inhabited α] {cmp : α → α → Bool}
    (sc : StrictCmp cmp) :
    ∀ (n : Nat) (h : List α), h.length ≤ n → heapInv cmp h →
      (pop_all cmp h).Perm h ∧
      List.Pairwise (fun x y => cmp y x = false) (pop_all cmp h) := by
  intro n
  induction n with
  | zero =>
    intro h hn _
    have hnil : h = [] := List.length_eq_zero.mp (by omega)
    subst hnil
    have h0 : pop_all cmp ([] : List α) = [] := by
      rw [pop_all_unfold]
      rfl
    rw [h0]
    exact ⟨List.Perm.refl _, List.Pairwise.nil⟩
  | succ n ih =>
    intro h hn hh
    by_cases hemp : h.isEmpty = true
    · rw [pop_all_unfold, if_pos hemp]
      have hnil : h = [] := by
        cases h
        · rfl
        · simp at hemp
      subst hnil
      exact ⟨List.Perm.refl _, List.Pairwise.nil⟩
    · rw [pop_all_unfold, if_neg hemp]
      have hne : h ≠ [] := by
        intro hx
        subst hx
        simp at hemp
      have hlen : 1 ≤ h.length := by
        cases h
        · exact absurd rfl hne
        · simp
      have hpl : (popF cmp h).length = h.length - 1 := popF_length cmp h
      obtain ⟨ihperm, ihsorted⟩ := ih (popF cmp h) (by omega) (popF_inv sc h hh)
      constructor
      · exact (ihperm.cons _).trans (popF_perm cmp h hne)
      · constructor
        · intro y hy
          have hy2 : y ∈ popF cmp h := ihperm.mem_iff.mp hy
          have hy3 : y ∈ h :=
            (popF_perm cmp h hne).mem_iff.mp (List.mem_cons_of_mem _ hy2)
          obtain ⟨j, hj, hjy⟩ := List.mem_iff_getElem.mp hy3
          have : getI h j = y := by rw [getI_eq_getElem h j hj, hjy]
          rw [← this]
          exact rootLe sc hh j hj
        · exact ihsorted

/-- Two sorted permutations of the same multiset coincide; this is the
uniqueness used by the heap-sort and insert-update claims. -/
theorem sorted_perm_eq {α : Type} {cmp : α → α → Bool} (sc : StrictCmp cmp) :
    ∀ (l1 l2 : List α), l1.Perm l2 →
      List.Pairwise (fun x y => cmp y x = false) l1 →
      List.Pairwise (fun x y => cmp y x = false) l2 → l1 = l2 := by
  intro l1
  induction l1 with
  | nil =>
    intro l2 hperm _ _
    exact (hperm.symm.eq_nil).symm
  | cons a t1 ih =>
    intro l2 hperm h1 h2
    cases l2 with
    | nil => exact absurd hperm.eq_nil (by simp)
    | cons b t2 =>
      obtain ⟨h1head, h1tail⟩ := List.pairwise_cons.mp h1
      obtain ⟨h2head, h2tail⟩ := List.pairwise_cons.mp h2
      have hab : a = b := by
        by_contra hne
        have ha : a ∈ t2 := by
          rcases List.mem_cons.mp (hperm.mem_iff.mp (List.mem_cons_self a t1))
            with hx | hx
          · exact absurd hx hne
          · exact hx
        have hb : b ∈ t1 := by
          rcases List.mem_cons.mp (hperm.mem_iff.mpr (List.mem_cons_self b t2))
            with hx | hx
          · exact absurd hx.symm hne
          · exact hx
        have hba : cmp b a = false := h1head b hb
        have hab2 : cmp a b = false := h2head a ha
        rcases sc.tot a b with hx | hx | hx
        · rw [hx] at hab2; simp at hab2
        · exact hne hx
        · rw [hx] at hba; simp at hba
      subst hab
      rw [ih t2 hperm.cons_inv h1tail h2tail]

/-!  ## Heap sort -/

theorem heap_sort_loop_spec {α : Type} [Inhabited α] {cmp : α → α → Bool}
    (sc : StrictCmp cmp) :
    ∀ (e : Nat) (a : List α), e ≤ a.length →
      heapInvUpTo cmp a e →
      (∀ i j, i < j → j < a.length → e ≤ j →
        cmp (getI a i) (getI a j) = false) →
      (heap_sort_loop cmp a e).Perm a ∧
      (heap_sort_loop cmp a e).length = a.length ∧
      (∀ i j, i < j → j < a.length →
        cmp (getI (heap_sort_loop cmp a e) i) (getI (heap_sort_loop cmp a e) j)
          = false) := by
  intro e
  induction e with
  | zero =>
    intro a _ _ hsorted
    exact ⟨List.Perm.refl _, rfl, fun i j hij hj => hsorted i j hij hj (by omega)⟩
  | succ e ih =>
    intro a he hinv hsorted
    have helen : e < a.length := by omega
    have hlen0 : 0 < a.length := by omega
    -- names for the three intermediate sequences of the loop body
    have hlen1 : (setI a 0 (getI a e)).length = a.length := length_setI a 0 _
    have hlen2 : (heapify_down cmp (setI a 0 (getI a e)) e 0).length = a.length := by
      rw [heapify_down_length, hlen1]
    have hlen3 : (setI (heapify_down cmp (setI a 0 (getI a e)) e 0) e (getI a 0)).length
        = a.length := by
      rw [length_setI, hlen2]
    -- the prefix values of the first stage agree with `a` off the root
    have ha1 : ∀ k, e ≤ k → getI (setI a 0 (getI a e)) k = getI a k := by
      intro k hk
      by_cases he0 : e = 0
      · subst he0
        rw [setI_getI_self]
      · exact getI_setI_ne a 0 k _ (by omega)
    -- the invariant of the shrunk prefix after the sift-down
    have hinv2 : heapInvUpTo cmp (heapify_down cmp (setI a 0 (getI a e)) e 0) e := by
      apply heapify_down_restore sc e _ e 0 (by omega) (by omega)
      · intro j hj hj0 hpj
        have hp := parentIdx_lt j hj0
        rw [getI_setI_ne a 0 j _ (by omega), getI_setI_ne a 0 _ _ (by omega)]
        exact hinv j (by omega) hj0
      · intro h0 _ _ _
        omega
    -- the suffix is untouched by the sift-down
    have ha2 : ∀ k, e ≤ k →
        getI (heapify_down cmp (setI a 0 (getI a e)) e 0) k = getI a k := by
      intro k hk
      rw [heapify_down_getI_of_ge cmp _ e 0 k hk]
      exact ha1 k hk
    -- membership of the active prefix before the recursive call
    have hmem : ∀ i, i < e →
        ∃ m, m ≤ e ∧ getI (heapify_down cmp (setI a 0 (getI a e)) e 0) i = getI a m := by
      intro i hi
      have htp := heapify_down_take_perm_of cmp (setI a 0 (getI a e)) e 0
        (by omega)
      have hxb : i < ((heapify_down cmp (setI a 0 (getI a e)) e 0).take e).length := by
        simp only [List.length_take, hlen2]
        omega
      have hx : getI (heapify_down cmp (setI a 0 (getI a e)) e 0) i
          ∈ (heapify_down cmp (setI a 0 (getI a e)) e 0).take e := by
        rw [← getI_take _ e i hi, getI_eq_getElem _ i hxb]
        exact List.getElem_mem hxb
      have hy : getI (heapify_down cmp (setI a 0 (getI a e)) e 0) i
          ∈ (setI a 0 (getI a e)).take e := htp.mem_iff.mp hx
      obtain ⟨m, hm, hmv⟩ := List.mem_iff_getElem.mp hy
      have hmlt : m < e := by
        have := hm
        simp at this
        omega
      have hmv2 : getI (setI a 0 (getI a e)) m
          = getI (heapify_down cmp (setI a 0 (getI a e)) e 0) i := by
        rw [← hmv, ← getI_eq_getElem _ m hm, getI_take _ e m hmlt]
      by_cases hm0 : m = 0
      · refine ⟨e, le_refl _, ?_⟩
        rw [← hmv2, hm0, getI_setI_eq a 0 _ hlen0]
      · refine ⟨m, by omega, ?_⟩
        rw [← hmv2, getI_setI_ne a 0 m _ (by omega)]
    -- the recursive call's sortedness precondition
    have hsorted3 : ∀ i j, i < j →
        j < (setI (heapify_down cmp (setI a 0 (getI a e)) e 0) e (getI a 0)).length →
        e ≤ j →
        cmp (getI (setI (heapify_down cmp (setI a 0 (getI a e)) e 0) e (getI a 0)) i)
          (getI (setI (heapify_down cmp (setI a 0 (getI a e)) e 0) e (getI a 0)) j)
          = false := by
      intro i j hij hj hej
      rw [hlen3] at hj
      have hgj : getI (setI (heapify_down cmp (setI a 0 (getI a e)) e 0) e (getI a 0)) j
          = if j = e then getI a 0 else getI a j := by
        by_cases hje : j = e
        · rw [if_pos hje, hje, getI_setI_eq _ _ _ (by omega)]
        · rw [if_neg hje, getI_setI_ne _ _ _ _ (by omega), ha2 j (by omega)]
      by_cases hie : i < e
      · obtain ⟨m, hm, hmv⟩ := hmem i hie
        rw [getI_setI_ne _ _ _ _ (by omega), hmv, hgj]
        by_cases hje : j = e
        · rw [if_pos hje]
          exact rootLe sc hinv m (by omega)
        · rw [if_neg hje]
          exact hsorted m j (by omega) hj (by omega)
      · have hgi : getI (setI (heapify_down cmp (setI a 0 (getI a e)) e 0) e (getI a 0)) i
            = if i = e then getI a 0 else getI a i := by
          by_cases hie2 : i = e
          · rw [if_pos hie2, hie2, getI_setI_eq _ _ _ (by omega)]
          · rw [if_neg hie2, getI_setI_ne _ _ _ _ (by omega), ha2 i (by omega)]
        rw [hgi, hgj]
        by_cases hie2 : i = e
        · rw [if_pos hie2, if_neg (by omega)]
          exact hsorted 0 j (by omega) hj (by omega)
        · rw [if_neg hie2, if_neg (by omega)]
          exact hsorted i j hij hj (by omega)
    -- the invariant precondition of the recursive call
    have hinv3 : heapInvUpTo cmp
        (setI (heapify_down cmp (setI a 0 (getI a e)) e 0) e (getI a 0)) e := by
      intro j hj hj0
      have hp := parentIdx_lt j hj0
      rw [getI_setI_ne _ _ _ _ (by omega), getI_setI_ne _ _ _ _ (by omega)]
      exact hinv2 j hj hj0
    -- the permutation of the loop body
    have hperm3 : (setI (heapify_down cmp (setI a 0 (getI a e)) e 0) e (getI a 0)).Perm a := by
      have q1 : (getI a 0 :: setI a 0 (getI a e)).Perm (getI a e :: a) :=
        getI_cons_setI_perm a 0 _ hlen0
      have q2 : (heapify_down cmp (setI a 0 (getI a e)) e 0).Perm (setI a 0 (getI a e)) :=
        heapify_down_perm cmp _ e 0 (by omega)
      have q3 : (getI (heapify_down cmp (setI a 0 (getI a e)) e 0) e
          :: setI (heapify_down cmp (setI a 0 (getI a e)) e 0) e (getI a 0)).Perm
          (getI a 0 :: heapify_down cmp (setI a 0 (getI a e)) e 0) :=
        getI_cons_setI_perm _ e _ (by omega)
      rw [ha2 e (le_refl _)] at q3
      have q4 : (getI a e
          :: setI (heapify_down cmp (setI a 0 (getI a e)) e 0) e (getI a 0)).Perm
          (getI a e :: a) :=
        q3.trans ((q2.cons _).trans q1)
      exact q4.cons_inv
    obtain ⟨rperm, rlen, rsorted⟩ := ih _ (by omega) hinv3 hsorted3
    refine ⟨?_, ?_, ?_⟩
    · show (heap_sort_loop cmp _ e).Perm a
      exact rperm.trans hperm3
    · show (heap_sort_loop cmp _ e).length = a.length
      rw [rlen, hlen3]
    · intro i j hij hj
      exact rsorted i j hij (by rw [hlen3]; exact hj)

theorem heap_sort_t_spec {α : Type} [Inhabited α] {cmp : α → α → Bool}
    (sc : StrictCmp cmp) (a : List α) :
    (heap_sort_t cmp a).Perm a ∧
    (heap_sort_t cmp a).length = a.length ∧
    (∀ i j, i < j → j < a.length →
      cmp (getI (heap_sort_t cmp a) i) (getI (heap_sort_t cmp a) j) = false) := by
  unfold heap_sort_t
  by_cases hemp : a.isEmpty = true
  · rw [if_pos hemp]
    have hnil : a = [] := by
      cases a
      · rfl
      · simp at hemp
    subst hnil
    exact ⟨List.Perm.refl _, rfl, by intro i j _ hj; simp at hj⟩
  · rw [if_neg hemp]
    have hinv := heapify_inv sc a
    have hlen := heapify_length cmp a
    have hperm := heapify_perm sc a
    obtain ⟨rperm, rlen, rsorted⟩ := heap_sort_loop_spec sc a.length (heapify cmp a)
      (by omega) (by unfold heapInv at hinv; rw [hlen] at hinv; exact hinv)
      (by intro i j _ hj hej; rw [hlen] at hj; omega)
    refine ⟨rperm.trans hperm, by rw [rlen, hlen], ?_⟩
    intro i j hij hj
    exact rsorted i j hij (by rw [hlen]; exact hj)

/-!  ## Equivalence of the implemented Sift-Up with the contract of §4.2 -/

theorem sift_up_spec_loop_congr {α : Type} [Inhabited α] (cmp : α → α → Bool) :
    ∀ (fuel fuel' : Nat) (seq : List α) (node : Nat), node < fuel →
      node < fuel' →
      sift_up_spec_loop cmp fuel seq node = sift_up_spec_loop cmp fuel' seq node := by
  intro fuel
  induction fuel with
  | zero => intro fuel' seq node hf; omega
  | succ fuel ih =>
    intro fuel' seq node hf hf'
    obtain ⟨f2, rfl⟩ : ∃ f2, fuel' = f2 + 1 := ⟨fuel' - 1, by omega⟩
    rw [sift_up_spec_loop, sift_up_spec_loop]
    by_cases hg : node ≠ 0 ∧ cmp (getI seq node) (getI seq (parentIdx node)) = true
    · rw [if_pos hg, if_pos hg]
      have hp : parentIdx node < node := parentIdx_lt node (by omega)
      exact ih f2 _ (parentIdx node) (by omega) (by omega)
    · rw [if_neg hg, if_neg hg]

theorem heapify_up_eq_spec {α : Type} [Inhabited α] {cmp : α → α → Bool}
    (hirr : CmpIrrefl cmp) :
    ∀ (node : Nat) (seq : List α),
      heapify_up cmp seq node = sift_up_spec cmp seq node := by
  intro node
  induction node using Nat.strong_induction_on with
  | _ node ih =>
    intro seq
    by_cases hn0 : node = 0
    · subst hn0
      rw [heapify_up_zero hirr]
      unfold sift_up_spec
      rw [sift_up_spec_loop, if_neg (by simp)]
    · have hpl := parentIdx_lt node (by omega)
      cases hc : cmp (getI seq node) (getI seq (parentIdx node)) with
      | false =>
        rw [heapify_up_stop cmp seq node hc]
        unfold sift_up_spec
        rw [sift_up_spec_loop, if_neg (by simp [hc])]
      | true =>
        rw [heapify_up_step hirr seq node (by omega) hc, ih (parentIdx node) hpl]
        have hr : sift_up_spec cmp seq node
            = sift_up_spec_loop cmp node (swapI seq (parentIdx node) node)
                (parentIdx node) := by
          unfold sift_up_spec
          rw [sift_up_spec_loop, if_pos ⟨hn0, hc⟩]
        rw [hr]
        unfold sift_up_spec
        exact sift_up_spec_loop_congr cmp _ _ _ _ (by omega) (by omega)

/-!  ## Idempotence of Build-Heap -/

theorem heapify_up_fix {α : Type} [Inhabited α] {cmp : α → α → Bool}
    (hirr : CmpIrrefl cmp) (a : List α) (i : Nat)
    (hstop : 0 < i → cmp (getI a i) (getI a (parentIdx i)) = false) :
    heapify_up cmp a i = a := by
  by_cases hi0 : i = 0
  · subst hi0
    exact heapify_up_zero hirr a
  · exact heapify_up_stop cmp a i (hstop (by omega))

theorem heapify_idem {α : Type} [Inhabited α] {cmp : α → α → Bool}
    (hirr : CmpIrrefl cmp) (a : List α) (hh : heapInv cmp a) :
    heapify cmp a = a := by
  unfold heapify
  have main : ∀ n, n ≤ a.length →
      (List.range n).foldl (fun s i => heapify_up cmp s i) a = a := by
    intro n
    induction n with
    | zero => intro _; rfl
    | succ n ihn =>
      intro hn
      rw [List.range_succ, List.foldl_append, ihn (by omega)]
      simp only [List.foldl_cons, List.foldl_nil]
      exact heapify_up_fix hirr a n (fun h0 => hh n (by omega) h0)
  exact main a.length (le_refl _)

/-!  ## The invariant in parent-to-child form -/

/-- The invariant the mutations actually maintain, phrased child-wise like
§3: no in-range child is "before" its parent. -/
def heapInvChildren {α : Type} [Inhabited α] (cmp : α → α → Bool)
    (a : List α) : Prop :=
  ∀ i, i < a.length → ∀ j, j < a.length → (j = leftIdx i ∨ j = rightIdx i) →
    cmp (getI a j) (getI a i) = false

instance {α : Type} [Inhabited α] (cmp : α → α → Bool) (a : List α) :
    Decidable (heapInvChildren cmp a) := by
  unfold heapInvChildren; infer_instance

theorem heapInv_iff_children {α : Type} [Inhabited α] (cmp : α → α → Bool)
    (a : List α) : heapInv cmp a ↔ heapInvChildren cmp a := by
  constructor
  · intro H i hi j hj hchild
    have hj0 : 0 < j := by
      unfold leftIdx rightIdx at hchild
      omega
    have hpj : parentIdx j = i := (parentIdx_eq_iff j i hj0).mpr hchild
    have := H j hj hj0
    rw [hpj] at this
    exact this
  · intro H j hj hj0
    have hchild := (parentIdx_eq_iff j (parentIdx j) hj0).mp rfl
    have hp : parentIdx j < a.length := by
      have := parentIdx_lt j hj0
      omega
    exact H (parentIdx j) hp j hj hchild

/-!  ## Invariant preservation over operation sequences -/

theorem applyOp_inv {α : Type} [Inhabited α] [DecidableEq α]
    {cmp : α → α → Bool} (sc : StrictCmp cmp) (h : List α) (op : HeapOp α)
    (hh : heapInv cmp h) : heapInv cmp (applyOp cmp h op) := by
  cases op with
  | pushOp v => exact push_inv sc h v hh
  | popOp =>
    unfold applyOp
    by_cases hemp : h.isEmpty = true
    · rw [if_pos hemp]; exact hh
    · rw [if_neg hemp]; exact popF_inv sc h hh
  | insertOp p v =>
    show heapInv cmp (if p ≤ h.length then insert cmp h p v else h)
    by_cases hp : p ≤ h.length
    · rw [if_pos hp]
      by_cases hpe : p = h.length
      · unfold insert
        rw [if_pos hpe]
        exact push_inv sc h v hh
      · exact insert_inv sc h p v hh (by omega)
    · rw [if_neg hp]; exact hh

theorem runOps_inv {α : Type} [Inhabited α] [DecidableEq α]
    {cmp : α → α → Bool} (sc : StrictCmp cmp) (init : List α)
    (ops : List (HeapOp α)) : heapInv cmp (runOps cmp init ops) := by
  unfold runOps
  have base : heapInv cmp (heap_of_list cmp init) := heapify_inv sc init
  generalize heap_of_list cmp init = b at base ⊢
  induction ops generalizing b with
  | nil => exact base
  | cons op ops ih =>
    rw [List.foldl_cons]
    exact ih _ (applyOp_inv sc b op base)

/-!  ## The concrete comparators -/

theorem maxCmp_strict : StrictCmp maxCmp := by
  constructor
  · intro x; simp [maxCmp]
  · intro x y z h1 h2
    simp only [maxCmp, decide_eq_true_eq] at h1 h2 ⊢
    omega
  · intro x y
    simp only [maxCmp, decide_eq_true_eq]
    omega

theorem minCmp_strict : StrictCmp minCmp := by
  constructor
  · intro x; simp [minCmp]
  · intro x y z h1 h2
    simp only [minCmp, decide_eq_true_eq] at h1 h2 ⊢
    omega
  · intro x y
    simp only [minCmp, decide_eq_true_eq]
    omega

theorem StrictCmp.flip {α : Type} {cmp : α → α → Bool} (sc : StrictCmp cmp) :
    StrictCmp (fun a b => cmp b a) := by
  constructor
  · intro x; exact sc.irrefl x
  · intro x y z h1 h2; exact sc.tr z y x h2 h1
  · intro x y
    rcases sc.tot x y with h | h | h
    · exact Or.inr (Or.inr h)
    · exact Or.inr (Or.inl h)
    · exact Or.inl h

/-!  ## Support for the insert_or_update equivalence -/

theorem cons_eraseIdx_perm {α : Type} [Inhabited α] (l : List α) (p : Nat)
    (hp : p < l.length) : (getI l p :: l.eraseIdx p).Perm l := by
  have h1 : l.eraseIdx p = l.take p ++ l.drop (p + 1) :=
    List.eraseIdx_eq_take_drop_succ l p
  have h2 : l.take p ++ getI l p :: l.drop (p + 1) = l := by
    rw [getI_eq_getElem l p hp, List.getElem_cons_drop l p hp,
      List.take_append_drop]
  rw [h1]
  have h3 : (getI l p :: (l.take p ++ l.drop (p + 1))).Perm
      (l.take p ++ getI l p :: l.drop (p + 1)) := List.perm_middle.symm
  have h4 : (l.take p ++ getI l p :: l.drop (p + 1)).Perm l := by
    rw [h2]
  exact h3.trans h4

theorem pairwise_of_getI {α : Type} [Inhabited α] (l : List α)
    (R : α → α → Prop)
    (H : ∀ i j, i < j → j < l.length → R (getI l i) (getI l j)) :
    List.Pairwise R l := by
  rw [List.pairwise_iff_getElem]
  intro i j hi hj hij
  have h := H i j hij hj
  rw [getI_eq_getElem _ i hi, getI_eq_getElem _ j hj] at h
  exact h

/-- The observable content of the insert_or_update equivalence: updating slot
`p` of a valid heap to `v` and draining yields the same sequence as pushing
`v` onto a heap over the remaining elements and draining. -/
theorem insert_extraction_equiv {α : Type} [Inhabited α] [DecidableEq α]
    {cmp : α → α → Bool} (sc : StrictCmp cmp) (h : List α) (p : Nat) (v : α)
    (hh : heapInv cmp h) (hp : p < h.length) :
    pop_all cmp (insert cmp h p v)
      = pop_all cmp (push cmp (heapify cmp (h.eraseIdx p)) v) := by
  have hLinv : heapInv cmp (insert cmp h p v) := insert_inv sc h p v hh hp
  have hRinv : heapInv cmp (push cmp (heapify cmp (h.eraseIdx p)) v) :=
    push_inv sc _ v (heapify_inv sc _)
  -- both heaps carry the same multiset
  have hLperm : (insert cmp h p v).Perm (v :: h.eraseIdx p) := by
    have q1 : (getI h p :: insert cmp h p v).Perm (v :: h) :=
      insert_perm cmp h p v hp
    have q2 : (v :: h).Perm (v :: getI h p :: h.eraseIdx p) :=
      ((cons_eraseIdx_perm h p hp).symm).cons v
    have q3 : (v :: getI h p :: h.eraseIdx p).Perm
        (getI h p :: v :: h.eraseIdx p) := List.Perm.swap _ _ _
    exact (q1.trans (q2.trans q3)).cons_inv
  have hRperm : (push cmp (heapify cmp (h.eraseIdx p)) v).Perm
      (v :: h.eraseIdx p) := by
    have q1 : (push cmp (heapify cmp (h.eraseIdx p)) v).Perm
        (heapify cmp (h.eraseIdx p) ++ [v]) := push_perm cmp _ v
    have q2 : (heapify cmp (h.eraseIdx p) ++ [v]).Perm (h.eraseIdx p ++ [v]) :=
      (heapify_perm sc _).append_right [v]
    have q3 : (h.eraseIdx p ++ [v]).Perm (v :: h.eraseIdx p) := by
      rw [← List.singleton_append]
      exact List.perm_append_comm
    exact q1.trans (q2.trans q3)
  obtain ⟨hL1, hL2⟩ := pop_all_spec sc (insert cmp h p v).length _ (le_refl _) hLinv
  obtain ⟨hR1, hR2⟩ := pop_all_spec sc (push cmp (heapify cmp (h.eraseIdx p)) v).length
    _ (le_refl _) hRinv
  apply sorted_perm_eq sc _ _ _ hL2 hR2
  exact hL1.trans (hLperm.trans (hRperm.symm.trans hR1.symm))

/-!  ## Full heap-sort specification -/

theorem heap_sort_spec_full {α : Type} [Inhabited α] {cmp : α → α → Bool}
    (sc : StrictCmp cmp) (a : List α) :
    (heap_sort_t cmp a).Perm a ∧
    List.Pairwise (fun x y => cmp x y = false) (heap_sort_t cmp a) ∧
    (∀ l2 : List α, l2.Perm a → List.Pairwise (fun x y => cmp x y = false) l2 →
      l2 = heap_sort_t cmp a) := by
  obtain ⟨hperm, hlen, hsorted⟩ := heap_sort_t_spec sc a
  have hpw : List.Pairwise (fun x y => cmp x y = false) (heap_sort_t cmp a) := by
    apply pairwise_of_getI
    intro i j hij hj
    exact hsorted i j hij (by rw [← hlen]; exact hj)
  refine ⟨hperm, hpw, ?_⟩
  intro l2 hl2 hpw2
  exact sorted_perm_eq sc.flip l2 _ (hl2.trans hperm.symm) hpw2 hpw

theorem heap_sort_t_idem {α : Type} [Inhabited α] {cmp : α → α → Bool}
    (sc : StrictCmp cmp) (a : List α) :
    heap_sort_t cmp (heap_sort_t cmp a) = heap_sort_t cmp a := by
  obtain ⟨_, hpw, _⟩ := heap_sort_spec_full sc a
  obtain ⟨_, _, huniq⟩ := heap_sort_spec_full sc (heap_sort_t cmp a)
  exact (huniq (heap_sort_t cmp a) (List.Perm.refl _) hpw).symm

/-!  ## The claims -/

/-- Claim C1, counterexample to the literal statement: starting from a
constructed (empty) max-heap, the operation sequence `push 5; push 5` leaves
the backing array `[5, 5]`, whose index `0` has its left child `1` in range
while the strict `before(seq[0], seq[1])` of §3/§8 does not hold. -/
theorem claim_C1_counterexample :
    runOps maxCmp ([] : List Int) [HeapOp.pushOp 5, HeapOp.pushOp 5] = [5, 5] ∧
    ¬ heapInvStrict maxCmp
      (runOps maxCmp ([] : List Int) [HeapOp.pushOp 5, HeapOp.pushOp 5]) := by
  decide

/-- Claim C1 (amended): for every sequence of push, pop and insert_or_update
operations starting from a constructed heap, after each operation every
in-range parent/child pair satisfies the invariant in its non-strict form:
the child is never "before" the parent (with a strict injected ordering the
literal form fails on duplicate values, see the counterexample). -/
theorem claim_C1_invariant_preserved {α : Type} [Inhabited α] [DecidableEq α]
    (cmp : α → α → Bool) (sc : StrictCmp cmp) (init : List α)
    (ops : List (HeapOp α)) : heapInvChildren cmp (runOps cmp init ops) := by
  rw [← heapInv_iff_children]
  exact runOps_inv sc init ops

/-- Witness for C1 (amended) at a concrete operation sequence. -/
theorem claim_C1_invariant_preserved_witness :
    heapInvChildren maxCmp
      (runOps maxCmp ([3, 1, 2] : List Int)
        [HeapOp.pushOp 5, HeapOp.popOp, HeapOp.insertOp 1 7, HeapOp.popOp,
          HeapOp.pushOp 5, HeapOp.pushOp 5]) :=
  claim_C1_invariant_preserved maxCmp maxCmp_strict _ _

/-- Claim C2: repeatedly calling `pop_value` until empty on a max-heap built
from any batch yields a non-increasing sequence, on a min-heap a
non-decreasing sequence, and both extraction sequences are permutations of
the batch. -/
theorem claim_C2_pop_ordering (l : List Int) :
    List.Pairwise (fun x y : Int => y ≤ x)
      (pop_all maxCmp (heap_of_list maxCmp l)) ∧
    (pop_all maxCmp (heap_of_list maxCmp l)).Perm l ∧
    List.Pairwise (fun x y : Int => x ≤ y)
      (pop_all minCmp (heap_of_list minCmp l)) ∧
    (pop_all minCmp (heap_of_list minCmp l)).Perm l := by
  obtain ⟨hp1, hs1⟩ := pop_all_spec maxCmp_strict
    (heap_of_list maxCmp l).length _ (le_refl _) (heapify_inv maxCmp_strict l)
  obtain ⟨hp2, hs2⟩ := pop_all_spec minCmp_strict
    (heap_of_list minCmp l).length _ (le_refl _) (heapify_inv minCmp_strict l)
  refine ⟨?_, hp1.trans (heapify_perm maxCmp_strict l), ?_,
    hp2.trans (heapify_perm minCmp_strict l)⟩
  · refine hs1.imp ?_
    intro a b hab
    simp only [maxCmp, decide_eq_false_iff_not] at hab
    omega
  · refine hs2.imp ?_
    intro a b hab
    simp only [minCmp, decide_eq_false_iff_not] at hab
    omega

/-- Claim C3: `heap_sort_ascending` rearranges any finite input into the
unique non-decreasing permutation, `heap_sort_decending` into the unique
non-increasing permutation, and both are idempotent. -/
theorem claim_C3_heap_sort (l : List Int) :
    (heap_sort_ascending l).Perm l ∧
    List.Pairwise (fun x y : Int => x ≤ y) (heap_sort_ascending l) ∧
    (∀ l2 : List Int, l2.Perm l → List.Pairwise (fun x y : Int => x ≤ y) l2 →
      l2 = heap_sort_ascending l) ∧
    heap_sort_ascending (heap_sort_ascending l) = heap_sort_ascending l ∧
    (heap_sort_decending l).Perm l ∧
    List.Pairwise (fun x y : Int => y ≤ x) (heap_sort_decending l) ∧
    (∀ l2 : List Int, l2.Perm l → List.Pairwise (fun x y : Int => y ≤ x) l2 →
      l2 = heap_sort_decending l) ∧
    heap_sort_decending (heap_sort_decending l) = heap_sort_decending l := by
  obtain ⟨hap, haw, hau⟩ := heap_sort_spec_full maxCmp_strict l
  obtain ⟨hdp, hdw, hdu⟩ := heap_sort_spec_full minCmp_strict l
  refine ⟨hap, ?_, ?_, heap_sort_t_idem maxCmp_strict l, hdp, ?_, ?_,
    heap_sort_t_idem minCmp_strict l⟩
  · refine haw.imp ?_
    intro a b hab
    simp only [maxCmp, decide_eq_false_iff_not] at hab
    omega
  · intro l2 h1 h2
    apply hau l2 h1
    refine h2.imp ?_
    intro a b hab
    simp only [maxCmp, decide_eq_false_iff_not]
    omega
  · refine hdw.imp ?_
    intro a b hab
    simp only [minCmp, decide_eq_false_iff_not] at hab
    omega
  · intro l2 h1 h2
    apply hdu l2 h1
    refine h2.imp ?_
    intro a b hab
    simp only [minCmp, decide_eq_false_iff_not]
    omega

/-- Claim C4: `top` (peek) and `pop` (and `pop_value`) signal an "empty
container" error exactly on the empty heap, succeed on every non-empty heap,
and an erroring call leaves the container state unchanged (the check
precedes every mutation in the source). -/
theorem claim_C4_empty_errors {α : Type} [Inhabited α] (cmp : α → α → Bool)
    (h : List α) :
    (h = [] → top h = Except.error HeapErr.emptyContainer ∧
      pop cmp h = Except.error HeapErr.emptyContainer ∧
      pop_value cmp h = Except.error HeapErr.emptyContainer ∧
      pop_method cmp h = (h, Except.error HeapErr.emptyContainer)) ∧
    (h ≠ [] → top h = Except.ok (getI h 0) ∧
      pop cmp h = Except.ok (popF cmp h) ∧
      pop_value cmp h = Except.ok (getI h 0, popF cmp h) ∧
      pop_method cmp h = (popF cmp h, Except.ok ())) := by
  constructor
  · intro hnil
    subst hnil
    exact ⟨rfl, rfl, rfl, rfl⟩
  · intro hne
    have hemp : h.isEmpty = false := by
      cases h
      · exact absurd rfl hne
      · rfl
    unfold top pop pop_value pop_method
    rw [hemp]
    exact ⟨rfl, rfl, rfl, rfl⟩

/-- Witness for C4 on the empty heap and on a concrete non-empty heap. -/
theorem claim_C4_empty_errors_witness :
    (top ([] : List Int) = Except.error HeapErr.emptyContainer ∧
      pop maxCmp ([] : List Int) = Except.error HeapErr.emptyContainer ∧
      pop_value maxCmp ([] : List Int) = Except.error HeapErr.emptyContainer ∧
      pop_method maxCmp ([] : List Int)
        = ([], Except.error HeapErr.emptyContainer)) ∧
    (top ([3, 1, 2] : List Int) = Except.ok (getI [3, 1, 2] 0) ∧
      pop maxCmp ([3, 1, 2] : List Int) = Except.ok (popF maxCmp [3, 1, 2]) ∧
      pop_value maxCmp ([3, 1, 2] : List Int)
        = Except.ok (getI [3, 1, 2] 0, popF maxCmp [3, 1, 2]) ∧
      pop_method maxCmp ([3, 1, 2] : List Int)
        = (popF maxCmp [3, 1, 2], Except.ok ())) :=
  ⟨(claim_C4_empty_errors maxCmp ([] : List Int)).1 rfl,
    (claim_C4_empty_errors maxCmp ([3, 1, 2] : List Int)).2 (by decide)⟩

/-- Claim C5 (spec-modelled hardening of §4.5/§7): a position that is neither
the end position nor a valid existing index makes `insert_or_update` fail
with an "index out of range" error and leaves the heap unchanged. -/
theorem claim_C5_insert_out_of_range {α : Type} [Inhabited α] [DecidableEq α]
    (cmp : α → α → Bool) (h : List α) (p : Nat) (v : α)
    (hp : h.length < p) :
    insert_or_update cmp h p v = (h, Except.error HeapErr.indexOutOfRange) := by
  unfold insert_or_update
  rw [if_neg (by omega)]

/-- Witness for C5 at a concrete out-of-range position. -/
theorem claim_C5_insert_out_of_range_witness :
    ([1, 2] : List Int).length < 5 ∧
    insert_or_update maxCmp ([1, 2] : List Int) 5 7
      = ([1, 2], Except.error HeapErr.indexOutOfRange) :=
  ⟨by decide, claim_C5_insert_out_of_range maxCmp [1, 2] 5 7 (by decide)⟩

/-- Claim C6: on a valid heap, updating position `p` to `v` and draining the
heap yields the same extraction sequence as removing the old value at `p`,
pushing `v` freshly onto a heap of the remaining elements, and draining. -/
theorem claim_C6_insert_or_update_equiv {α : Type} [Inhabited α]
    [DecidableEq α] (cmp : α → α → Bool) (sc : StrictCmp cmp) (h : List α)
    (p : Nat) (v : α) (hh : heapInv cmp h) (hp : p < h.length) :
    pop_all cmp (insert cmp h p v)
      = pop_all cmp (push cmp (heapify cmp (h.eraseIdx p)) v) :=
  insert_extraction_equiv sc h p v hh hp

/-- Witness for C6 on a concrete valid max-heap. -/
theorem claim_C6_insert_or_update_equiv_witness :
    heapInv maxCmp ([5, 3, 4, 1, 2] : List Int) ∧
    1 < ([5, 3, 4, 1, 2] : List Int).length ∧
    pop_all maxCmp (insert maxCmp ([5, 3, 4, 1, 2] : List Int) 1 10)
      = pop_all maxCmp
          (push maxCmp (heapify maxCmp (([5, 3, 4, 1, 2] : List Int).eraseIdx 1)) 10) :=
  ⟨by decide, by decide,
    claim_C6_insert_or_update_equiv maxCmp maxCmp_strict [5, 3, 4, 1, 2] 1 10
      (by decide) (by decide)⟩

/-- Claim C7 (concrete scenario 1): constructing a max-heap from
`[0,1,2,3,4,5,6,7,8,9]` produces the backing array `[9,8,5,6,7,1,4,0,3,2]`,
and draining it yields `9,8,7,6,5,4,3,2,1,0`. -/
theorem claim_C7_concrete_scenario :
    heap_of_list maxCmp ([0, 1, 2, 3, 4, 5, 6, 7, 8, 9] : List Int)
      = [9, 8, 5, 6, 7, 1, 4, 0, 3, 2] ∧
    pop_all maxCmp (heap_of_list maxCmp ([0, 1, 2, 3, 4, 5, 6, 7, 8, 9] : List Int))
      = [9, 8, 7, 6, 5, 4, 3, 2, 1, 0] := by
  decide

/-- Claim C8: Build-Heap is idempotent: on a sequence already satisfying the
heap invariant it performs no effective swaps and returns the sequence
unchanged. -/
theorem claim_C8_build_heap_idem {α : Type} [Inhabited α]
    (cmp : α → α → Bool) (hirr : CmpIrrefl cmp) (a : List α)
    (hh : heapInv cmp a) : heapify cmp a = a :=
  heapify_idem hirr a hh

/-- Witness for C8 on a concrete valid max-heap. -/
theorem claim_C8_build_heap_idem_witness :
    heapInv maxCmp ([9, 8, 5, 6, 7, 1, 4, 0, 3, 2] : List Int) ∧
    heapify maxCmp ([9, 8, 5, 6, 7, 1, 4, 0, 3, 2] : List Int)
      = [9, 8, 5, 6, 7, 1, 4, 0, 3, 2] :=
  ⟨by decide, claim_C8_build_heap_idem maxCmp maxCmp_strict.irrefl _ (by decide)⟩

/-- Claim C9: the implemented Sift-Up coincides with the reference loop of
§4.2 (swap with the parent exactly while the index is nonzero and the node is
"before" its parent), and invoked at the root it performs no swaps and leaves
the sequence unchanged. -/
theorem claim_C9_sift_up_contract {α : Type} [Inhabited α]
    (cmp : α → α → Bool) (hirr : CmpIrrefl cmp) (seq : List α) (node : Nat) :
    heapify_up cmp seq node = sift_up_spec cmp seq node ∧
    heapify_up cmp seq 0 = seq :=
  ⟨heapify_up_eq_spec hirr node seq, heapify_up_zero hirr seq⟩

/-- Witness for C9 on a concrete sequence. -/
theorem claim_C9_sift_up_contract_witness :
    heapify_up maxCmp ([0, 5, 3] : List Int) 1
      = sift_up_spec maxCmp ([0, 5, 3] : List Int) 1 ∧
    heapify_up maxCmp ([0, 5, 3] : List Int) 0 = [0, 5, 3] :=
  claim_C9_sift_up_contract maxCmp maxCmp_strict.irrefl [0, 5, 3] 1

/-- Claim C10: Sift-Down terminates for every sequence, range end and start
index: the loop either stops or moves to a strictly larger child index below
the range end, so `e - node` further iterations always suffice and the
fueled loop computes the embedded total function. -/
theorem claim_C10_sift_down_total {α : Type} [Inhabited α]
    (cmp : α → α → Bool) (seq : List α) (e node fuel : Nat)
    (hf : e - node < fuel) :
    heapify_down_loop cmp fuel seq e node
      = some (heapify_down cmp seq e node) :=
  heapify_down_loop_mono cmp (e - node + 1) fuel seq e node _ (by omega)
    (heapify_down_eq_some cmp seq e node)

/-- Witness for C10 on a concrete sequence. -/
theorem claim_C10_sift_down_total_witness :
    3 - 0 < 4 ∧
    heapify_down_loop maxCmp 4 ([1, 5, 3] : List Int) 3 0
      = some (heapify_down maxCmp ([1, 5, 3] : List Int) 3 0) :=
  ⟨by decide, claim_C10_sift_down_total maxCmp [1, 5, 3] 3 0 4 (by decide)⟩

end HeapCpp
